import Mathlib

/-!
Verification of sat/model/finetune/lora2.py (SwissArmyTransformer LoRA mixin).

The module is shallowly embedded: tensors carry exact rational values with
explicit dtype and device metadata; Python exceptions become an `Except` error
monad; the random Kaiming initializer and the dropout mask are supplied as
oracles, so every definition is executable.
-/

set_option linter.unusedVariables false

namespace Lora2

/-- Torch storage dtypes that occur in sat/model/finetune/lora2.py. -/
inductive DType where
  | uint8 | float32 | float16 | bfloat16
  deriving DecidableEq

/-- Torch device of a tensor: cpu or the cuda accelerator. -/
inductive Device where
  | cpu | cuda
  deriving DecidableEq

/-- Python exceptions raised on the code paths modelled here. -/
inductive PyErr where
  | assertionError | zeroDivisionError | runtimeError | attributeError | typeError | keyError
  deriving DecidableEq

/-- Modelled from the spec: the external 4-bit backend's opaque quantization state
(blockwise scale/zero-point metadata) bound to a packed weight. It determines the
dequantized full-precision values, so the model records those values directly. -/
structure QuantState where
  dtype : DType
  dequant : List (List ℚ)
  deriving DecidableEq

/-- The payload of a torch tensor: a matrix (2-D) or a vector (1-D) of exact values. -/
inductive TData where
  | mat (m : List (List ℚ))
  | vec (v : List ℚ)
  deriving DecidableEq

/-- The shape of a tensor payload. Row one's length stands for the column count,
which agrees with the rectangular tensors the code builds. -/
def TData.shape : TData → List ℕ
  | .mat m => [m.length, (m.headD []).length]
  | .vec v => [v.length]

structure Tensor where
  dtype : DType
  device : Device
  data : TData
  quantState : Option QuantState := none
  deriving DecidableEq

def tShape0 (t : Tensor) : ℕ := t.data.shape.getD 0 0

def tShape1 (t : Tensor) : ℕ := t.data.shape.getD 1 0

/-- torch Tensor.copy_ : copies the source values into the destination storage in
place, keeping the destination's dtype and device; mismatched shapes raise
RuntimeError. -/
def copyT (dst src : Tensor) : Except PyErr Tensor :=
  if dst.data.shape = src.data.shape then
    .ok { dtype := dst.dtype, device := dst.device, data := src.data,
          quantState := dst.quantState }
  else .error .runtimeError

/-- Python true division: raises ZeroDivisionError on a zero divisor. -/
def pydiv (n d : ℚ) : Except PyErr ℚ :=
  if d = 0 then .error .zeroDivisionError else .ok (n / d)

/-- Python floor division of naturals: raises ZeroDivisionError on a zero divisor. -/
def pydivNat (n d : ℕ) : Except PyErr ℕ :=
  if d = 0 then .error .zeroDivisionError else .ok (n / d)

/-! Exact linear algebra on list matrices. -/

def dotQ (a b : List ℚ) : ℚ := (List.zipWith (· * ·) a b).sum

def matVec (M : List (List ℚ)) (x : List ℚ) : List ℚ := M.map (fun row => dotQ row x)

def vecAddE (a b : List ℚ) : Except PyErr (List ℚ) :=
  if a.length = b.length then .ok (List.zipWith (· + ·) a b) else .error .runtimeError

def scaleVec (c : ℚ) (v : List ℚ) : List ℚ := v.map (fun t => c * t)

def colsQ (M : List (List ℚ)) : ℕ := (M.headD []).length

def colQ (M : List (List ℚ)) (j : ℕ) : List ℚ := M.map (fun row => row.getD j 0)

/-- Matrix product M @ N written through explicit column extraction. -/
def matMul (M N : List (List ℚ)) : List (List ℚ) :=
  M.map (fun row => (List.range (colsQ N)).map (fun j => dotQ row (colQ N j)))

def scaleMat (c : ℚ) (M : List (List ℚ)) : List (List ℚ) := M.map (scaleVec c)

def shapeList (M : List (List ℚ)) : List ℕ := M.map List.length

def matAddE (M N : List (List ℚ)) : Except PyErr (List (List ℚ)) :=
  if shapeList M = shapeList N then
    .ok (List.zipWith (fun r s => List.zipWith (· + ·) r s) M N)
  else .error .runtimeError

def zerosMat (rows cols : ℕ) : List (List ℚ) := List.replicate rows (List.replicate cols 0)

def ofFnMat (rows cols : ℕ) (f : ℕ → ℕ → ℚ) : List (List ℚ) :=
  (List.range rows).map (fun i => (List.range cols).map (fun j => f i j))

def getMat (t : Tensor) : Except PyErr (List (List ℚ)) :=
  match t.data with
  | .mat m => .ok m
  | .vec _ => .error .typeError

def getVec (t : Tensor) : Except PyErr (List ℚ) :=
  match t.data with
  | .vec v => .ok v
  | .mat _ => .error .typeError

/-! The linear layers being wrapped. -/

/-- The exact classes map_cls accepts: nn.Linear, ColumnParallelLinear,
RowParallelLinear (each replaced by its Hack* checkpoint-compatible variant). -/
inductive OriginalCls where
  | nnLinear | columnParallel | rowParallel
  deriving DecidableEq

/-- A dense projection layer: weight matrix (out x in), optional bias. -/
structure LinLayer where
  cls : OriginalCls
  weight : Tensor
  bias : Option Tensor
  deriving DecidableEq

/-- Forward of a dense layer: y = W x + b. sat's row/column parallel linears
compute the same values in a single-device run. -/
def linForward (l : LinLayer) (x : List ℚ) : Except PyErr (List ℚ) := do
  let W ← getMat l.weight
  let base := matVec W x
  match l.bias with
  | none => pure base
  | some b => do
      let bv ← getVec b
      vecAddE base bv

/-- The partition argument of LoraLinear: a uniform integer count or an explicit
list of relative sizes. -/
inductive PartitionSpec where
  | int (k : ℕ)
  | list (ns : List ℕ)
  deriving DecidableEq

/-- The state a constructed LoraLinear module owns. -/
structure LoraState where
  loraDropoutP : ℚ
  r : ℕ
  loraAlpha : ℚ
  scaling : ℚ
  original : LinLayer
  matrix_A : List Tensor
  matrix_B : List Tensor
  partition : PartitionSpec
  deriving DecidableEq

/-- Modelled from the spec: constructing the backend's packed 4-bit linear layer
HackLinearNF4(in_dim, out_dim): a packed (uint8) weight carrying a bound
quantization state, plus an optional bias; values copied in later are kept
exactly. -/
def buildNF4 (in_dim out_dim : ℕ) (bias : Bool) : LinLayer :=
  { cls := .nnLinear,
    weight := { dtype := .uint8, device := .cpu, data := .mat (zerosMat out_dim in_dim),
                quantState := some { dtype := .float32, dequant := zerosMat out_dim in_dim } },
    bias := if bias then
        some { dtype := .float32, device := .cpu, data := .vec (List.replicate out_dim 0) }
      else none }

/-- LoraLinear.__init__ (lora2.py lines 64-115). Asserts the original object is
given; computes scaling = lora_alpha / r by Python division; rebuilds a base layer
of matching kind (torch.empty values stand as zeros, every one is overwritten by
the copy); copies the original weight and bias into it (copy_ checks shapes); then
allocates the factor pairs. Each matrix_A is r x in filled by the random Kaiming
initializer, supplied as the oracle Arand; each matrix_B is zero-initialized, with
rows // partition rows per part for an integer spec, or rows // sum(partition) * p
rows for a list spec, where rows and in come from the original weight's shape. -/
def LoraLinear.init (original_cls : OriginalCls) (partition : PartitionSpec)
    (in_dim out_dim : ℕ) (r : ℕ) (lora_alpha : ℚ) (lora_dropout : ℚ) (qlora : Bool)
    (original_obj : Option LinLayer) (Arand : ℕ → ℕ → ℕ → ℚ) : Except PyErr LoraState := do
  let obj ← match original_obj with
    | none => Except.error PyErr.assertionError
    | some o => Except.ok o
  let scaling ← pydiv lora_alpha (r : ℚ)
  let hasBias := obj.bias.isSome
  let dtype := obj.weight.dtype
  let base0 : LinLayer :=
    if qlora then buildNF4 in_dim out_dim hasBias
    else
      { cls := original_cls,
        weight := { dtype := dtype, device := .cpu, data := .mat (zerosMat out_dim in_dim) },
        bias := if hasBias then
            some { dtype := dtype, device := .cpu, data := .vec (List.replicate out_dim 0) }
          else none }
  let w ← copyT base0.weight obj.weight
  let base1 : LinLayer := { base0 with weight := w }
  let base ← match obj.bias, base1.bias with
    | some ob, some nb => do
        let b ← copyT nb ob
        pure { base1 with bias := some b }
    | _, _ => pure base1
  let objRows := tShape0 obj.weight
  let objCols := tShape1 obj.weight
  let numParts := match partition with
    | .int k => k
    | .list ns => ns.length
  let bRows ← match partition with
    | .int k => Except.ok (List.replicate k (objRows / k))
    | .list ns => ns.mapM (fun p => (pydivNat objRows ns.sum).map (fun q => q * p))
  let mA := (List.range numParts).map (fun p =>
    ({ dtype := dtype, device := .cpu, data := .mat (ofFnMat r objCols (Arand p)) } : Tensor))
  let mB := bRows.map (fun rows =>
    ({ dtype := dtype, device := .cpu, data := .mat (zerosMat rows r) } : Tensor))
  pure { loraDropoutP := lora_dropout, r := r, loraAlpha := lora_alpha, scaling := scaling,
         original := base, matrix_A := mA, matrix_B := mB, partition := partition }

def Tensor.toDevice (t : Tensor) (d : Device) : Tensor := { t with device := d }

def LinLayer.toDevice (l : LinLayer) (d : Device) : LinLayer :=
  { l with weight := l.weight.toDevice d, bias := l.bias.map (fun b => b.toDevice d) }

def LoraState.toDevice (st : LoraState) (d : Device) : LoraState :=
  { st with original := st.original.toDevice d,
            matrix_A := st.matrix_A.map (fun t => t.toDevice d),
            matrix_B := st.matrix_B.map (fun t => t.toDevice d) }

/-- replace_linear_with_lora (lines 137-150): resolve the sizes from the explicit
in_size/out_size overrides (out_size defaulting to in_size * partition) or from the
weight shape, build the LoraLinear from the original object, and move it to the
original weight's device. Multiplying in_size by a list partition is Python
sequence repetition and makes the later layer construction fail; it is folded into
a TypeError here. -/
def replace_linear_with_lora (lin : LinLayer) (partition : PartitionSpec) (r : ℕ)
    (lora_alpha lora_dropout : ℚ) (qlora : Bool) (in_size out_size : Option ℕ)
    (Arand : ℕ → ℕ → ℕ → ℚ) : Except PyErr LoraState := do
  let dims ← match in_size with
    | some insz =>
        match out_size with
        | some o => Except.ok (o, insz)
        | none =>
            match partition with
            | .int k => Except.ok (insz * k, insz)
            | .list _ => Except.error PyErr.typeError
    | none => Except.ok (tShape0 lin.weight, tShape1 lin.weight)
  let st ← LoraLinear.init lin.cls partition dims.2 dims.1 r lora_alpha lora_dropout qlora
    (some lin) Arand
  pure (st.toDevice lin.weight.device)

/-- copy_to_model_parallel_region is the identity on values in a single-device run
(it only shapes gradient reduction across the model-parallel group). -/
def copyToModelParallelRegion (v : List ℚ) : List ℚ := v

/-- torch.cat along the last dimension; torch rejects an empty tensor list. -/
def catVecs (vs : List (List ℚ)) : Except PyErr (List ℚ) :=
  if vs.isEmpty then .error .runtimeError else .ok vs.flatten

/-- One partition's term of LoraLinear.forward (line 131):
(copy_to_model_parallel_region(x @ A^T) @ B^T) * scaling, for one (A, B) pair. -/
def loraPartOut (scal : ℚ) (x1 : List ℚ) (ab : Tensor × Tensor) : Except PyErr (List ℚ) := do
  let mA ← getMat ab.1
  let mB ← getMat ab.2
  pure (scaleVec scal (matVec mB (copyToModelParallelRegion (matVec mA x1))))

/-- LoraLinear.forward (lines 126-134): the base projection's output plus the
concatenation over partitions of (dropout(x) @ A_p^T @ B_p^T) * scaling. The
dropout applied to x is the oracle dropoutFn whenever a positive rate was stored,
and the identity otherwise, exactly as the constructor set self.lora_dropout. -/
def loraForward (st : LoraState) (dropoutFn : List ℚ → List ℚ) (x : List ℚ) :
    Except PyErr (List ℚ) := do
  let base ← linForward st.original x
  let x1 := if 0 < st.loraDropoutP then dropoutFn x else x
  let outs ← (List.zip st.matrix_A st.matrix_B).mapM (loraPartOut st.scaling x1)
  let cat ← catVecs outs
  vecAddE base cat

/-- bitsandbytes.functional.dequantize_fp4, modelled from the spec: reconstruct the
full-precision values recorded in the bound quantization state. -/
def dequantize_fp4 (qs : QuantState) : Tensor :=
  { dtype := qs.dtype, device := .cpu, data := .mat qs.dequant }

/-- Tensor.to(dtype): the dtype changes, the exact values are kept. -/
def Tensor.cast (t : Tensor) (d : DType) : Tensor := { t with dtype := d }

/-- torch.cat along dimension -2 (rows); torch rejects an empty tensor list. -/
def catRows (ms : List (List (List ℚ))) : Except PyErr (List (List ℚ)) :=
  if ms.isEmpty then .error .runtimeError else .ok ms.flatten

/-- One partition's delta block in merge_linear_lora (line 166):
B.float() @ A.float() * scaling, for one (A, B) pair. -/
def mergeBlock (scal : ℚ) (ab : Tensor × Tensor) : Except PyErr (List (List ℚ)) := do
  let mA ← getMat ab.1
  let mB ← getMat ab.2
  pure (scaleMat scal (matMul mB mA))

/-- merge_linear_lora (lines 152-172). A non-uint8 base weight is used directly; a
uint8 one is dequantized through its bound quantization state and cast to the
bias's dtype (self.original.bias.data is read unconditionally there, so a missing
bias raises AttributeError, as does a missing quant_state attribute). The delta is
the row-concatenation of B_p @ A_p * scaling in full precision; the fused weight
(base + delta) is cast to the guess dtype: the bias's dtype when a bias exists,
else the stored weight's dtype, with uint8 replaced by float32. The merged layer
moves to cuda when available. -/
def merge_linear_lora (cudaAvailable : Bool) (lin : LoraState) : Except PyErr LinLayer := do
  let weight ←
    if lin.original.weight.dtype ≠ .uint8 then pure lin.original.weight
    else do
      let qs ← match lin.original.weight.quantState with
        | some qs => Except.ok qs
        | none => Except.error PyErr.attributeError
      let b ← match lin.original.bias with
        | some b => Except.ok b
        | none => Except.error PyErr.attributeError
      pure ((dequantize_fp4 qs).cast b.dtype)
  let newBias := lin.original.bias
  let blocks ← (List.zip lin.matrix_A lin.matrix_B).mapM (mergeBlock lin.scaling)
  let delta ← catRows blocks
  let wM ← getMat weight
  let guess0 := match lin.original.bias with
    | some b => b.dtype
    | none => lin.original.weight.dtype
  let guess := if guess0 = DType.uint8 then DType.float32 else guess0
  let fused ← matAddE wM delta
  let newLin : LinLayer :=
    { cls := .nnLinear,
      weight := { dtype := guess, device := weight.device, data := .mat fused },
      bias := newBias }
  pure (if cudaAvailable then newLin.toDevice .cuda else newLin)

/-! Checkpoint restore. -/

/-- A checkpoint: a flat mapping from dotted string keys to tensors. -/
abbrev StateDict := List (String × Tensor)

def hasKey (sd : StateDict) (k : String) : Bool := (sd.lookup k).isSome

/-- HackLinear._load_from_state_dict (lines 15-20; lines 22-34 are the identical
row/column-parallel variants): copy the weight tensor in place when its flat key is
present, then likewise the bias; absent keys are silently skipped. Copying a bias
into a layer built without one dereferences self.bias = None, an AttributeError. -/
def HackLinear.loadFromStateDict (sd : StateDict) (pfx : String) (l : LinLayer) :
    Except PyErr LinLayer := do
  let l1 ← match sd.lookup (pfx ++ "weight") with
    | some t => do
        let w ← copyT l.weight t
        pure { l with weight := w }
    | none => pure l
  match sd.lookup (pfx ++ "bias") with
  | some t =>
      match l1.bias with
      | some b => do
          let b1 ← copyT b t
          pure { l1 with bias := some b1 }
      | none => Except.error PyErr.attributeError
  | none => pure l1

/-- HackParameterList._load_from_state_dict (lines 52-56), unrolled over the list
with its running index i: copy the tensor at key prefix+str(i) in place when the
key is present, skip it silently otherwise. -/
def HackParameterList.loadAux (sd : StateDict) (pfx : String) :
    ℕ → List Tensor → Except PyErr (List Tensor)
  | _, [] => pure []
  | i, p :: ps => do
      let p1 ← match sd.lookup (pfx ++ toString i) with
        | some t => copyT p t
        | none => pure p
      let rest ← HackParameterList.loadAux sd pfx (i + 1) ps
      pure (p1 :: rest)

def HackParameterList.loadFromStateDict (sd : StateDict) (pfx : String)
    (ps : List Tensor) : Except PyErr (List Tensor) :=
  HackParameterList.loadAux sd pfx 0 ps

/-- The generic structured restore that the super() call reaches for a checkpoint
already in LoRA layout: each registered submodule of the LoraLinear (original,
matrix_A, matrix_B) restores its parameters under its nested key prefix. The
per-submodule recursion lives in framework library code outside this repository
and is modelled from the spec ("delegate to the generic structured restore ...
with per-submodule nested keys"). -/
def structuredRestore (sd : StateDict) (pfx : String) (st : LoraState) :
    Except PyErr LoraState := do
  let o ← HackLinear.loadFromStateDict sd (pfx ++ "original.") st.original
  let mA ← HackParameterList.loadFromStateDict sd (pfx ++ "matrix_A.") st.matrix_A
  let mB ← HackParameterList.loadFromStateDict sd (pfx ++ "matrix_B.") st.matrix_B
  pure { st with original := o, matrix_A := mA, matrix_B := mB }

/-- LoraLinear._load_from_state_dict (lines 117-124): when the flat key
prefix+weight is present the checkpoint predates the substitution and the whole
restore is delegated to the inner base projection at the same prefix; otherwise
the generic structured restore runs. -/
def LoraLinear.loadFromStateDict (sd : StateDict) (pfx : String) (st : LoraState) :
    Except PyErr LoraState :=
  if hasKey sd (pfx ++ "weight") then do
    let o ← HackLinear.loadFromStateDict sd pfx st.original
    pure { st with original := o }
  else structuredRestore sd pfx st

/-! LoraMixin construction. -/

structure LoraMixinState where
  r : ℕ
  loraAlpha : ℚ
  loraDropoutP : ℚ
  layerRange : List ℕ
  scaling : ℚ
  qlora : Bool
  crossAttention : Bool
  deriving DecidableEq

/-- LoraMixin.__init__ (lines 174-194): store the hyperparameters, default the
layer range to range(layer_num), and eagerly compute scaling = lora_alpha / r by
Python division, which raises ZeroDivisionError when r = 0. -/
def LoraMixin.init (layer_num : ℕ) (r : ℕ) (lora_alpha : ℚ) (lora_dropout : ℚ)
    (layer_range : Option (List ℕ)) (qlora : Bool) (cross_attention : Bool) :
    Except PyErr LoraMixinState := do
  let range := match layer_range with
    | none => List.range layer_num
    | some l => l
  let scaling ← pydiv lora_alpha (r : ℚ)
  pure { r := r, loraAlpha := lora_alpha, loraDropoutP := lora_dropout,
         layerRange := range, scaling := scaling, qlora := qlora,
         crossAttention := cross_attention }

/-! replace_linear_with_nf4 (lines 209-237): the traversal works on live Python
objects, so the model is a heap of module objects addressed by identity. -/

/-- The payload of a convertible linear layer in the conversion walk. -/
structure LinData where
  weight : List (List ℚ)
  bias : Option (List ℚ)
  deriving DecidableEq

/-- A module object on the Python heap: an exactly-convertible linear
(nn.Linear / RowParallelLinear / ColumnParallelLinear), an already packed
HackLinearNF4, or any other module, seen by the walk only through its named
children (a childless leaf is container []). -/
inductive Obj where
  | linear (d : LinData)
  | nf4 (d : LinData)
  | container (children : List (String × ℕ))
  deriving DecidableEq

/-- The Python heap: module objects addressed by identity. -/
structure Heap where
  next : ℕ
  objs : List (ℕ × Obj)
  deriving DecidableEq

def Heap.get (h : Heap) (i : ℕ) : Option Obj := h.objs.lookup i

def Heap.alloc (h : Heap) (o : Obj) : Heap :=
  { next := h.next + 1, objs := (h.next, o) :: h.objs }

def setChild (o : Obj) (n : String) (nid : ℕ) : Obj :=
  match o with
  | .container cs => .container (cs.map (fun q => if q.1 = n then (q.1, nid) else q))
  | o => o

/-- setattr(model, name, child): rebind one named child of a module. -/
def Heap.setattr (h : Heap) (mid : ℕ) (n : String) (nid : ℕ) : Heap :=
  { h with objs := h.objs.map (fun p => if p.1 = mid then (p.1, setChild p.2 n nid) else p) }

/-- named_children yields each (name, module) once per distinct module object:
keep the first occurrence of each child identity. -/
def dedupById : List (String × ℕ) → List ℕ → List (String × ℕ)
  | [], _ => []
  | (n, i) :: rest, seen =>
      if i ∈ seen then dedupById rest seen else (n, i) :: dedupById rest (i :: seen)

def namedChildren (h : Heap) (mid : ℕ) : List (String × ℕ) :=
  match h.get mid with
  | some (.container cs) => dedupById cs []
  | _ => []

def childCount (h : Heap) (mid : ℕ) : ℕ :=
  match h.get mid with
  | some (.container cs) => cs.length
  | _ => 0

/-- The visited-object-to-replacement cache, keyed by object identity. -/
abbrev Cache := List (ℕ × ℕ)

/-- One pass of the inner for loop of the trailing while (lines 231-235) over a
snapshot of named_children: each name not yet handled is rebound to the cached
replacement of its current child (a child missing from the cache would be a
Python KeyError, folded into the failure value). -/
def scanPass : List (String × ℕ) → Heap → Cache → ℕ → List String → Bool →
    Option (Heap × List String × Bool)
  | [], h, _, _, names, flag => some (h, names, flag)
  | (n, cid) :: rest, h, c, mid, names, flag =>
      if n ∈ names then scanPass rest h c mid names flag
      else
        match c.lookup cid with
        | some nid => scanPass rest (h.setattr mid n nid) c mid (n :: names) true
        | none => none

/-- The while flag loop (lines 228-235), fuelled: rescan named_children until a
scan rebinds nothing. -/
def whilePass : ℕ → Heap → Cache → ℕ → List String → Option (Heap × List String)
  | 0, _, _, _, _ => none
  | wf + 1, h, c, mid, names => do
      let s ← scanPass (namedChildren h mid) h c mid names false
      if s.2.2 then whilePass wf s.1 c mid s.2.1 else some (s.1, s.2.1)

mutual

/-- replace_linear_with_nf4 (lines 209-237), fuelled against cyclic module graphs
(on which the Python recursion would not terminate either). An exactly-convertible
linear becomes a freshly allocated HackLinearNF4 carrying the same weight and bias
values; any other module has its named children converted in place: each
first-named child is converted through the identity-keyed cache and rebound, then
the trailing while loop rebinds the remaining aliases of converted children. -/
def convert : ℕ → Heap → Cache → ℕ → Option (Heap × Cache × ℕ)
  | 0, _, _, _ => none
  | fuel + 1, h, c, mid =>
      match h.get mid with
      | some (.linear d) => some (h.alloc (.nf4 d), c, h.next)
      | _ => do
          let s ← convertChildren fuel (namedChildren h mid) h c mid []
          let w ← whilePass (childCount s.1 mid + 1) s.1 s.2.1 mid s.2.2
          some (w.1, s.2.1, mid)
termination_by fuel _ _ _ => (fuel, 0)

/-- The first for loop (lines 218-227) over a snapshot of named_children: convert
each yielded child through the cache keyed by object identity, record the
replacement, and rebind its name. -/
def convertChildren : ℕ → List (String × ℕ) → Heap → Cache → ℕ → List String →
    Option (Heap × Cache × List String)
  | _, [], h, c, _, names => some (h, c, names)
  | fuel, (n, cid) :: rest, h, c, mid, names =>
      if n ∈ names then convertChildren fuel rest h c mid names
      else
        match c.lookup cid with
        | some nid => convertChildren fuel rest (h.setattr mid n nid) c mid (n :: names)
        | none => do
            let s ← convert fuel h c cid
            convertChildren fuel rest (s.1.setattr mid n s.2.2) ((cid, s.2.2) :: s.2.1)
              mid (n :: names)
termination_by fuel l _ _ _ _ => (fuel, l.length + 1)

end

/-! Wellformedness predicates (all Boolean, hence decidable). -/

/-- A rectangular rows x cols list matrix. -/
def isRectB (m : List (List ℚ)) (rows cols : ℕ) : Bool :=
  m.length = rows && m.all (fun row => row.length = cols)

/-- A dense layer whose weight is a rectangular out x in matrix and whose bias,
when present, is a vector of matching length: the shapes every torch linear has. -/
def WFLinB (l : LinLayer) (out_dim in_dim : ℕ) : Bool :=
  (match l.weight.data with
   | .mat m => isRectB m out_dim in_dim
   | .vec _ => false) &&
  (match l.bias with
   | none => true
   | some b =>
       match b.data with
       | .vec v => v.length = out_dim
       | .mat _ => false)

/-- The partition spec yields a nonempty factor list whose output widths sum
exactly to out_dim: a positive integer count dividing out_dim, or a nonempty list
with positive sum dividing out_dim. -/
def partOkB (p : PartitionSpec) (out_dim : ℕ) : Bool :=
  match p with
  | .int k => k ≠ 0 && out_dim % k = 0
  | .list ns => !ns.isEmpty && ns.sum ≠ 0 && out_dim % ns.sum = 0

/-- The number of factor pairs the constructor allocates. -/
def partCount (p : PartitionSpec) : ℕ :=
  match p with
  | .int k => k
  | .list ns => ns.length

/-- The matrix_B row counts the constructor computes from the original weight's
row count: out // k per part for an integer spec, out // sum(ns) * n for a list. -/
def bRowsSpec (p : PartitionSpec) (out_dim : ℕ) : List ℕ :=
  match p with
  | .int k => List.replicate k (out_dim / k)
  | .list ns => ns.map (fun n => out_dim / ns.sum * n)

/-- The list partition spec divides without a ZeroDivisionError: it is empty (the
comprehension never evaluates the division) or its sum is nonzero. Integer specs
never divide eagerly outside the comprehension. -/
def partDivB (p : PartitionSpec) : Bool :=
  match p with
  | .int _ => true
  | .list ns => ns.isEmpty || ns.sum ≠ 0

/-- The state LoraLinear.__init__ produces when every runtime check passes;
collected in closed form for the proofs below. -/
def initResult (cls : OriginalCls) (part : PartitionSpec) (in_dim out_dim r : ℕ)
    (lora_alpha lora_dropout : ℚ) (qlora : Bool) (obj : LinLayer)
    (Arand : ℕ → ℕ → ℕ → ℚ) : LoraState :=
  let dtype := obj.weight.dtype
  let bdt := if qlora then DType.float32 else dtype
  let wdt := if qlora then DType.uint8 else dtype
  let qs : Option QuantState :=
    if qlora then some { dtype := .float32, dequant := zerosMat out_dim in_dim } else none
  let bcls := if qlora then OriginalCls.nnLinear else cls
  { loraDropoutP := lora_dropout, r := r, loraAlpha := lora_alpha,
    scaling := lora_alpha / (r : ℚ),
    original :=
      { cls := bcls,
        weight := { dtype := wdt, device := .cpu, data := obj.weight.data, quantState := qs },
        bias := obj.bias.map (fun ob =>
          { dtype := bdt, device := .cpu, data := ob.data, quantState := none }) },
    matrix_A := (List.range (partCount part)).map (fun p =>
      ({ dtype := dtype, device := .cpu,
         data := .mat (ofFnMat r (tShape1 obj.weight) (Arand p)) } : Tensor)),
    matrix_B := (bRowsSpec part (tShape0 obj.weight)).map (fun n =>
      ({ dtype := dtype, device := .cpu, data := .mat (zerosMat n r) } : Tensor)),
    partition := part }

/-- A concrete 7 x 1 dense layer exercising the integer partition rounding. -/
def cexLayer7 : LinLayer :=
  { cls := .nnLinear,
    weight := { dtype := .float32, device := .cpu, data := .mat (zerosMat 7 1) },
    bias := none }

/-- A concrete 8 x 4 dense layer for the [1, 3] partition scenario. -/
def wLayer8 : LinLayer :=
  { cls := .nnLinear,
    weight := { dtype := .float32, device := .cpu, data := .mat (zerosMat 8 4) },
    bias := none }

/-- A concrete 2 x 2 dense layer with bias for the construction-transparency
scenario. -/
def wLayerC1 : LinLayer :=
  { cls := .nnLinear,
    weight := { dtype := .float32, device := .cpu, data := .mat [[2, 1], [0, 1]] },
    bias := some { dtype := .float32, device := .cpu, data := .vec [5, 7] } }

/-- A concrete 2 x 2 dense layer with bias for the round-trip scenario. -/
def wLayerC2 : LinLayer :=
  { cls := .nnLinear,
    weight := { dtype := .float32, device := .cpu, data := .mat [[1, 2], [3, 4]] },
    bias := some { dtype := .float32, device := .cpu, data := .vec [1, 1] } }

/-- The dual-mode restore contract as the spec phrases it: with the flat
prefix+weight key the whole restore is the inner base projection's restore at the
same prefix and both factor-pair lists stay untouched at their current values;
without it the generic structured per-submodule restore runs. -/
def restoreDualModeSpec (sd : StateDict) (pfx : String) (st : LoraState) :
    Except PyErr LoraState :=
  if hasKey sd (pfx ++ "weight") then
    (HackLinear.loadFromStateDict sd pfx st.original).map (fun o =>
      { loraDropoutP := st.loraDropoutP, r := st.r, loraAlpha := st.loraAlpha,
        scaling := st.scaling, original := o, matrix_A := st.matrix_A,
        matrix_B := st.matrix_B, partition := st.partition })
  else structuredRestore sd pfx st

/-- The wrapper restore contract as the spec phrases it, as a total function: a
present key's tensor is copied into the existing parameter storage, keeping the
destination's dtype, device and quantization state and taking only the source's
values; an absent key leaves the parameter untouched. -/
def hackLinearLoadSpec (sd : StateDict) (pfx : String) (l : LinLayer) : LinLayer :=
  { l with
    weight :=
      match sd.lookup (pfx ++ "weight") with
      | some t =>
          { dtype := l.weight.dtype, device := l.weight.device, data := t.data,
            quantState := l.weight.quantState }
      | none => l.weight,
    bias :=
      match sd.lookup (pfx ++ "bias"), l.bias with
      | some t, some b =>
          some { dtype := b.dtype, device := b.device, data := t.data,
                 quantState := b.quantState }
      | _, _ => l.bias }

/-- The parameter-list restore contract as the spec phrases it, as a total
function over the running index. -/
def hackParamListLoadSpec (sd : StateDict) (pfx : String) :
    ℕ → List Tensor → List Tensor
  | _, [] => []
  | i, p :: ps =>
      (match sd.lookup (pfx ++ toString i) with
       | some t =>
           { dtype := p.dtype, device := p.device, data := t.data,
             quantState := p.quantState }
       | none => p) :: hackParamListLoadSpec sd pfx (i + 1) ps

/-- Every key of the checkpoint that addresses this layer carries a tensor of the
destination's shape, and a bias tensor only arrives when the layer has a bias. -/
def shapeOkLin (sd : StateDict) (pfx : String) (l : LinLayer) : Bool :=
  (match sd.lookup (pfx ++ "weight") with
   | some t => decide (t.data.shape = l.weight.data.shape)
   | none => true) &&
  (match sd.lookup (pfx ++ "bias") with
   | some t =>
       match l.bias with
       | some b => decide (t.data.shape = b.data.shape)
       | none => false
   | none => true)

/-- Every indexed key of the checkpoint carries a tensor of the matching
parameter's shape. -/
def shapeOkList (sd : StateDict) (pfx : String) : ℕ → List Tensor → Bool
  | _, [] => true
  | i, p :: ps =>
      (match sd.lookup (pfx ++ toString i) with
       | some t => decide (t.data.shape = p.data.shape)
       | none => true) && shapeOkList sd pfx (i + 1) ps

/-- A small constructed LoraLinear state used by the concrete restore scenarios. -/
def c4State : LoraState :=
  { loraDropoutP := 0, r := 1, loraAlpha := 1, scaling := 1,
    original :=
      { cls := .nnLinear,
        weight := { dtype := .float32, device := .cpu, data := .mat [[0, 0], [0, 0]] },
        bias := some { dtype := .float32, device := .cpu, data := .vec [0, 0] } },
    matrix_A := [{ dtype := .float32, device := .cpu, data := .mat [[9, 9]] }],
    matrix_B := [{ dtype := .float32, device := .cpu, data := .mat [[0], [0]] }],
    partition := .int 1 }

/-- A legacy (pre-substitution) checkpoint holding only the flat weight and bias
keys under the prefix "p.". -/
def c4Dict : StateDict :=
  [("p.weight", { dtype := .float16, device := .cuda, data := .mat [[1, 2], [3, 4]] }),
   ("p.bias", { dtype := .float16, device := .cuda, data := .vec [5, 6] })]

/-- The low-rank delta of the merge engine as the spec phrases it: the row-wise
concatenation over partitions of B_p @ A_p * scaling in full precision. -/
def deltaSpec (lin : LoraState) : Except PyErr (List (List ℚ)) :=
  (List.zip lin.matrix_A lin.matrix_B).mapM (mergeBlock lin.scaling) >>= catRows

/-- The merge engine's guess dtype: the bias's dtype when a bias exists, else the
stored weight's dtype, with the packed uint8 type replaced by float32. -/
def guessDType (lin : LoraState) : DType :=
  let g :=
    match lin.original.bias with
    | some b => b.dtype
    | none => lin.original.weight.dtype
  if g = DType.uint8 then DType.float32 else g

/-- The merged plain layer the merge engine assembles from the fused weight data,
moved to cuda when available. -/
def mkMerged (cud : Bool) (dt : DType) (dev : Device) (fused : List (List ℚ))
    (bias : Option Tensor) : LinLayer :=
  let nl : LinLayer :=
    { cls := .nnLinear,
      weight := { dtype := dt, device := dev, data := .mat fused },
      bias := bias }
  if cud then nl.toDevice .cuda else nl

/-- A quantized (uint8) LoraLinear state without a bias: the merge engine's
unhandled corner. -/
def c5State : LoraState :=
  { loraDropoutP := 0, r := 1, loraAlpha := 1, scaling := 1,
    original :=
      { cls := .nnLinear,
        weight := { dtype := .uint8, device := .cpu, data := .mat [[1]],
                    quantState := some { dtype := .float32, dequant := [[1]] } },
        bias := none },
    matrix_A := [{ dtype := .float32, device := .cpu, data := .mat [[1]] }],
    matrix_B := [{ dtype := .float32, device := .cpu, data := .mat [[0]] }],
    partition := .int 1 }

/-- A concrete dense layer and parameter list for the wrapper-restore scenarios. -/
def c7Layer : LinLayer :=
  { cls := .nnLinear,
    weight := { dtype := .float32, device := .cpu, data := .mat [[0, 0]] },
    bias := some { dtype := .float32, device := .cuda, data := .vec [0] } }

def c7Params : List Tensor :=
  [{ dtype := .float32, device := .cpu, data := .mat [[1]] },
   { dtype := .bfloat16, device := .cuda, data := .mat [[2]] }]

def c7Dict : StateDict :=
  [("q.weight", { dtype := .float16, device := .cuda, data := .mat [[7, 8]] }),
   ("q.1", { dtype := .float16, device := .cpu, data := .mat [[9]] })]

/-- HackLinear._load_from_state_dict in closed form: the four key-presence cases
written out (used to reason about repeated restores). -/
def hackLinearLoadFn (sd : StateDict) (pfx : String) (l : LinLayer) :
    Except PyErr LinLayer :=
  match sd.lookup (pfx ++ "weight"), sd.lookup (pfx ++ "bias") with
  | none, none => .ok l
  | none, some tb =>
      match l.bias with
      | none => .error .attributeError
      | some b => (copyT b tb).map (fun b1 => { l with bias := some b1 })
  | some tw, none => (copyT l.weight tw).map (fun w => { l with weight := w })
  | some tw, some tb =>
      (copyT l.weight tw).bind (fun w =>
        match l.bias with
        | none => Except.error PyErr.attributeError
        | some b => (copyT b tb).map (fun b1 =>
            { l with weight := w, bias := some b1 }))

/-- The binding of one named child of a module. -/
def getBinding (h : Heap) (mid : ℕ) (n : String) : Option ℕ :=
  match h.get mid with
  | some (.container cs) => cs.lookup n
  | _ => none

/-- The id addresses an exactly-convertible linear or an already packed layer. -/
def isLeafB (h : Heap) (i : ℕ) : Bool :=
  match h.get i with
  | some (.linear _) => true
  | some (.nf4 _) => true
  | _ => false

/-- Heap sanity: object ids are distinct and below the allocation counter. -/
def WFHeapB (h : Heap) : Bool :=
  decide (h.objs.map Prod.fst).Nodup && h.objs.all (fun p => p.1 < h.next)

/-- The conversion cache is consistent with the heap: each entry maps an original
linear to its freshly packed copy, or an already packed module to itself. -/
def CacheOK (h : Heap) (c : Cache) : Prop :=
  ∀ o v, c.lookup o = some v →
    (∃ dd, h.get o = some (Obj.linear dd) ∧ h.get v = some (Obj.nf4 dd)) ∨
    (v = o ∧ ∃ dd, h.get o = some (Obj.nf4 dd))

/-- Cache extension: every association survives. -/
def CExt (c c2 : Cache) : Prop := ∀ o v, c.lookup o = some v → c2.lookup o = some v

/-- The invariant of the conversion walk over a flat container: heap sanity, leaf
preservation, the root container's bindings written as a map over the original
children (processed names point at their cached replacement), and cache
consistency. -/
def INVp (cs : List (String × ℕ)) (root : ℕ) (h0 h : Heap) (c : Cache)
    (names : List String) : Prop :=
  WFHeapB h = true ∧ h0.next ≤ h.next ∧
  (∀ i dd, h0.get i = some (Obj.linear dd) → h.get i = some (Obj.linear dd)) ∧
  (∀ i dd, h0.get i = some (Obj.nf4 dd) → h.get i = some (Obj.nf4 dd)) ∧
  h.get root = some (Obj.container (cs.map (fun p =>
    (p.1, if p.1 ∈ names then (c.lookup p.2).getD p.2 else p.2)))) ∧
  (∀ p ∈ cs, p.1 ∈ names → (c.lookup p.2).isSome = true) ∧
  CacheOK h c

/-- INVp plus a total cache domain: every original child is cached. -/
def INVw (cs : List (String × ℕ)) (root : ℕ) (h0 h : Heap) (c : Cache)
    (names : List String) : Prop :=
  INVp cs root h0 h c names ∧ ∀ p ∈ cs, (c.lookup p.2).isSome = true

/-- How many original child names are still unprocessed. -/
def remNames (cs : List (String × ℕ)) (names : List String) : ℕ :=
  ((cs.map Prod.fst).filter (fun n => n ∉ names)).length

/-- A concrete convertible payload for exercising the conversion walk. -/
def c6data : LinData := { weight := [[1, 2], [3, 4]], bias := some [5, 6] }

/-- A concrete flat module tree: object 0 is the root whose two distinct names
"a" and "b" reference the identical linear child object 1. -/
def c6heap : Heap :=
  { next := 2
    objs := [(0, Obj.container [("a", 1), ("b", 1)]), (1, Obj.linear c6data)] }

/-! Arithmetic facts about the embedded operations. -/

theorem dotQ_zero (r : ℕ) (v : List ℚ) : dotQ (List.replicate r 0) v = 0 := by
  induction r generalizing v with
  | zero => simp [dotQ]
  | succ n ih =>
      cases v with
      | nil => simp [dotQ]
      | cons a t =>
          simp only [dotQ, List.replicate_succ, List.zipWith_cons_cons, List.sum_cons]
          rw [zero_mul, zero_add]
          exact ih t

theorem scaleVec_zero (c : ℚ) (n : ℕ) :
    scaleVec c (List.replicate n 0) = List.replicate n 0 := by
  simp [scaleVec, List.map_replicate]

theorem matVec_zeros (rows cols : ℕ) (v : List ℚ) :
    matVec (zerosMat rows cols) v = List.replicate rows 0 := by
  unfold matVec zerosMat
  rw [List.map_replicate, dotQ_zero]

theorem flatten_map_replicate {α : Type} (l : List ℕ) (a : α) :
    (l.map (fun n => List.replicate n a)).flatten = List.replicate l.sum a := by
  induction l with
  | nil => simp
  | cons n t ih =>
      rw [List.map_cons, List.flatten_cons, ih, List.sum_cons, List.replicate_add]

theorem zipWith_add_zero_right (v : List ℚ) :
    List.zipWith (· + ·) v (List.replicate v.length 0) = v := by
  induction v with
  | nil => simp
  | cons a t ih => simp [List.replicate_succ, ih]

theorem vecAddE_zero_right (v : List ℚ) (n : ℕ) (h : n = v.length) :
    vecAddE v (List.replicate n 0) = .ok v := by
  subst h
  simp [vecAddE, zipWith_add_zero_right]

theorem matMul_zeros (rows c : ℕ) (N : List (List ℚ)) :
    matMul (zerosMat rows c) N = zerosMat rows (colsQ N) := by
  simp only [matMul, zerosMat, List.map_replicate]
  congr 1
  refine List.eq_replicate_iff.2 ⟨by simp, ?_⟩
  intro b hb
  simp only [List.mem_map] at hb
  obtain ⟨j, _, rfl⟩ := hb
  exact dotQ_zero c _

theorem scaleMat_zeros (c : ℚ) (rows cols : ℕ) :
    scaleMat c (zerosMat rows cols) = zerosMat rows cols := by
  simp [scaleMat, zerosMat, List.map_replicate, scaleVec_zero]

theorem shapeList_zeros (rows cols : ℕ) :
    shapeList (zerosMat rows cols) = List.replicate rows cols := by
  simp [shapeList, zerosMat, List.map_replicate]

theorem shapeList_rect (m : List (List ℚ)) (rows cols : ℕ)
    (h : isRectB m rows cols = true) : shapeList m = List.replicate rows cols := by
  simp only [isRectB, Bool.and_eq_true, decide_eq_true_eq, List.all_eq_true] at h
  refine List.eq_replicate_iff.2 ⟨by simp [shapeList, h.1], ?_⟩
  intro b hb
  simp only [shapeList, List.mem_map] at hb
  obtain ⟨row, hrow, rfl⟩ := hb
  exact h.2 row hrow

theorem matAddE_zero_right (m : List (List ℚ)) (rows cols : ℕ)
    (h : isRectB m rows cols = true) : matAddE m (zerosMat rows cols) = .ok m := by
  have hs := shapeList_rect m rows cols h
  simp only [matAddE, hs, shapeList_zeros, if_true]
  congr 1
  simp only [isRectB, Bool.and_eq_true, decide_eq_true_eq, List.all_eq_true] at h
  clear hs
  induction m generalizing rows with
  | nil => simp [zerosMat]
  | cons row t ih =>
      cases rows with
      | zero => simp at h
      | succ k =>
          have hrow : row.length = cols := h.2 row (by simp)
          have ht : t.length = k := by simpa using h.1
          simp only [zerosMat, List.replicate_succ, List.zipWith_cons_cons,
            List.cons_eq_cons]
          refine ⟨?_, ?_⟩
          · rw [← hrow]; exact zipWith_add_zero_right row
          · exact ih k ⟨ht, fun r hr => h.2 r (by simp [hr])⟩

/-! Reduction lemmas for the Except monad. -/

theorem ebind_ok {ε α β : Type} (a : α) (g : α → Except ε β) :
    (Except.ok a : Except ε α) >>= g = g a := rfl

theorem ebind_err {ε α β : Type} (e : ε) (g : α → Except ε β) :
    (Except.error e : Except ε α) >>= g = .error e := rfl

theorem epure {ε α : Type} (a : α) : (pure a : Except ε α) = .ok a := rfl

theorem emap_ok {ε α β : Type} (f : α → β) (a : α) :
    (f <$> (Except.ok a : Except ε α)) = .ok (f a) := rfl

theorem emap_err {ε α β : Type} (f : α → β) (e : ε) :
    (f <$> (Except.error e : Except ε α)) = .error e := rfl

theorem shape_zerosMat_eq_of_rect (m : List (List ℚ)) (rows cols : ℕ)
    (h : isRectB m rows cols = true) :
    (TData.mat (zerosMat rows cols)).shape = (TData.mat m).shape := by
  simp only [isRectB, Bool.and_eq_true, decide_eq_true_eq, List.all_eq_true] at h
  cases m with
  | nil =>
      have : rows = 0 := by simpa using h.1.symm
      subst this
      rfl
  | cons rowh t =>
      have hrows : rows = t.length + 1 := by simpa using h.1.symm
      subst hrows
      have hh : rowh.length = cols := h.2 rowh (by simp)
      simp [TData.shape, zerosMat, hh, List.replicate_succ]

theorem mapM_pydivNat (l : List ℕ) (S R : ℕ) (hs : S ≠ 0) :
    l.mapM (fun p => (pydivNat R S).map (fun q => q * p))
      = Except.ok (l.map (fun n => R / S * n)) := by
  induction l with
  | nil => rfl
  | cons a t ih =>
      rw [List.mapM_cons, ih]
      simp [pydivNat, hs, Except.map]
      rfl

/-- When the original layer is wellformed, r is nonzero and the list partition
does not divide by zero, LoraLinear.__init__ succeeds and returns exactly
initResult. -/
theorem init_ok (cls : OriginalCls) (part : PartitionSpec) (in_dim out_dim r : ℕ)
    (lora_alpha lora_dropout : ℚ) (qlora : Bool) (obj : LinLayer)
    (Arand : ℕ → ℕ → ℕ → ℚ)
    (hw : WFLinB obj out_dim in_dim = true) (hr : r ≠ 0) (hp : partDivB part = true) :
    LoraLinear.init cls part in_dim out_dim r lora_alpha lora_dropout qlora (some obj) Arand
      = .ok (initResult cls part in_dim out_dim r lora_alpha lora_dropout qlora obj Arand) := by
  have hrq : ¬((r : ℚ) = 0) := by exact_mod_cast hr
  simp only [WFLinB, Bool.and_eq_true] at hw
  obtain ⟨ocls, ow, obias⟩ := obj
  obtain ⟨odt, odev, odata, oqs⟩ := ow
  obtain ⟨hwm, hwb⟩ := hw
  simp only at hwm hwb
  cases odata with
  | vec v => exact absurd hwm (by simp)
  | mat m =>
  simp only at hwm
  have hsh := shape_zerosMat_eq_of_rect m out_dim in_dim hwm
  simp only [TData.shape, List.cons.injEq, and_true, List.headD_eq_head?] at hsh
  cases part with
  | int k =>
      cases obias with
      | none =>
          cases qlora <;>
            (unfold LoraLinear.init
             simp [pydiv, hrq, copyT, hsh.1, hsh.2, buildNF4, ebind_ok, epure,
               initResult, partCount, bRowsSpec, tShape0, tShape1, TData.shape])
      | some ob =>
          obtain ⟨obdt, obdev, obdata, obqs⟩ := ob
          cases obdata with
          | mat mm => exact absurd hwb (by simp)
          | vec bv =>
              simp only [decide_eq_true_eq] at hwb
              cases qlora <;>
                (unfold LoraLinear.init
                 simp [pydiv, hrq, copyT, hsh.1, hsh.2, hwb, buildNF4, ebind_ok, epure,
                   initResult, partCount, bRowsSpec, tShape0, tShape1, TData.shape])
  | list ns =>
      have hdiv : ∀ R : ℕ,
          ns.mapM (fun p => (pydivNat R ns.sum).map (fun q => q * p))
            = Except.ok (ns.map (fun n => R / ns.sum * n)) := by
        intro R
        cases hns : ns with
        | nil => rfl
        | cons a t =>
            refine mapM_pydivNat (a :: t) (a :: t).sum R ?_
            intro h0
            rw [hns] at hp
            rw [partDivB] at hp
            simp [h0] at hp
      simp only [List.mapM] at hdiv
      cases obias with
      | none =>
          cases qlora <;>
            (unfold LoraLinear.init
             simp [pydiv, hrq, copyT, hsh.1, hsh.2, buildNF4, ebind_ok, epure, hdiv,
               initResult, partCount, bRowsSpec, tShape0, tShape1, TData.shape])
      | some ob =>
          obtain ⟨obdt, obdev, obdata, obqs⟩ := ob
          cases obdata with
          | mat mm => exact absurd hwb (by simp)
          | vec bv =>
              simp only [decide_eq_true_eq] at hwb
              cases qlora <;>
                (unfold LoraLinear.init
                 simp [pydiv, hrq, copyT, hsh.1, hsh.2, hwb, buildNF4, ebind_ok, epure,
                   hdiv, initResult, partCount, bRowsSpec, tShape0, tShape1, TData.shape])


/-! Facts about shapes and partition widths. -/

theorem sum_map_mul_left_nat (c : ℕ) (l : List ℕ) :
    (l.map (fun n => c * n)).sum = c * l.sum := by
  induction l with
  | nil => simp
  | cons a t ih => simp [ih, Nat.mul_add]

theorem tShape0_of_wf (l : LinLayer) (out_dim in_dim : ℕ)
    (h : WFLinB l out_dim in_dim = true) : tShape0 l.weight = out_dim := by
  simp only [WFLinB, Bool.and_eq_true] at h
  obtain ⟨hm, _⟩ := h
  cases hd : l.weight.data with
  | vec v => rw [hd] at hm; exact absurd hm (by simp)
  | mat m =>
      rw [hd] at hm
      simp only at hm
      simp only [isRectB, Bool.and_eq_true, decide_eq_true_eq, List.all_eq_true] at hm
      simp [tShape0, TData.shape, hd, hm.1]

theorem WFLinB_self (l : LinLayer) (out_dim in_dim : ℕ)
    (h : WFLinB l out_dim in_dim = true) :
    WFLinB l (tShape0 l.weight) (tShape1 l.weight) = true := by
  simp only [WFLinB, Bool.and_eq_true] at h ⊢
  obtain ⟨hm, hb⟩ := h
  have h0 := tShape0_of_wf l out_dim in_dim (by simp [WFLinB, hm, hb])
  refine ⟨?_, ?_⟩
  · cases hd : l.weight.data with
    | vec v => rw [hd] at hm; exact absurd hm (by simp)
    | mat m =>
        rw [hd] at hm
        simp only at hm
        simp only [isRectB, Bool.and_eq_true, decide_eq_true_eq, List.all_eq_true] at hm
        simp only [isRectB, Bool.and_eq_true, decide_eq_true_eq, List.all_eq_true]
        refine ⟨by simp [tShape0, TData.shape, hd], ?_⟩
        intro row hrow
        have := hm.2 row hrow
        cases m with
        | nil => cases hrow
        | cons rh t =>
            have hrh : rh.length = in_dim := hm.2 rh (by simp)
            simp [tShape1, TData.shape, hd, List.headD_eq_head?, hrh, this]
  · cases hbv : l.bias with
    | none => simp
    | some b =>
        rw [hbv] at hb
        simp only at hb
        rw [h0]
        exact hb

theorem bRowsSpec_sum (part : PartitionSpec) (out_dim : ℕ)
    (hp : partOkB part out_dim = true) : (bRowsSpec part out_dim).sum = out_dim := by
  cases part with
  | int k =>
      simp only [partOkB, Bool.and_eq_true, bne_iff_ne, ne_eq, decide_eq_true_eq] at hp
      simp only [bRowsSpec, List.sum_replicate, smul_eq_mul]
      exact Nat.mul_div_cancel' (Nat.dvd_of_mod_eq_zero hp.2)
  | list ns =>
      simp only [partOkB, Bool.and_eq_true, bne_iff_ne, ne_eq, decide_eq_true_eq] at hp
      simp only [bRowsSpec, sum_map_mul_left_nat]
      exact Nat.div_mul_cancel (Nat.dvd_of_mod_eq_zero hp.2)

theorem partOkB_partDivB (part : PartitionSpec) (out_dim : ℕ)
    (hp : partOkB part out_dim = true) : partDivB part = true := by
  cases part with
  | int k => rfl
  | list ns =>
      simp only [partOkB, Bool.and_eq_true, bne_iff_ne, ne_eq, decide_eq_true_eq] at hp
      simp only [partDivB, List.isEmpty_iff, Bool.or_eq_true, decide_eq_true_eq]
      exact Or.inr hp.1.2

theorem bRowsSpec_ne_nil (part : PartitionSpec) (out_dim : ℕ)
    (hp : partOkB part out_dim = true) : bRowsSpec part out_dim ≠ [] := by
  cases part with
  | int k =>
      simp only [partOkB, Bool.and_eq_true, bne_iff_ne, ne_eq, decide_eq_true_eq] at hp
      simp only [bRowsSpec]
      intro hnil
      have := congrArg List.length hnil
      simp [hp.1] at this
  | list ns =>
      simp only [partOkB, Bool.and_eq_true, bne_iff_ne, ne_eq, decide_eq_true_eq] at hp
      simp only [bRowsSpec]
      intro hnil
      have := congrArg List.length hnil
      simp at this
      subst this
      simp at hp


/-! C3: partition output widths. -/

/-- C3 (amended): for every wellformed LoraLinear construction, the matrix_B
output widths follow bRowsSpec computed by integer division: for an integer spec k
all k widths equal out_dim // k, so they sum to out_dim exactly when k divides
out_dim; for a list spec the widths are out_dim // sum(ns) * n, proportional to
the entries, and sum to out_dim exactly when sum(ns) divides out_dim (the claim's
unconditional "sum is exactly out_dim" fails when the divisor does not divide
out_dim, as the counterexample shows). -/
theorem partition_widths (cls : OriginalCls) (part : PartitionSpec)
    (in_dim out_dim r : ℕ) (lora_alpha lora_dropout : ℚ) (qlora : Bool)
    (obj : LinLayer) (Arand : ℕ → ℕ → ℕ → ℚ)
    (hw : WFLinB obj out_dim in_dim = true) (hr : r ≠ 0) (hp : partDivB part = true) :
    ∃ st, LoraLinear.init cls part in_dim out_dim r lora_alpha lora_dropout qlora
        (some obj) Arand = .ok st ∧
      st.matrix_B.map tShape0 = bRowsSpec part out_dim ∧
      (partOkB part out_dim = true → (st.matrix_B.map tShape0).sum = out_dim) ∧
      (∀ k, part = PartitionSpec.int k →
        st.matrix_B.map tShape0 = List.replicate k (out_dim / k)) ∧
      (∀ ns, part = PartitionSpec.list ns →
        st.matrix_B.map tShape0 = ns.map (fun n => out_dim / ns.sum * n)) := by
  have hout := tShape0_of_wf obj out_dim in_dim hw
  have hone : ∀ n : ℕ,
      tShape0 ({ dtype := obj.weight.dtype, device := Device.cpu,
                 data := TData.mat (zerosMat n r), quantState := none } : Tensor) = n := by
    intro n
    simp [tShape0, TData.shape, zerosMat]
  have hwidths : (initResult cls part in_dim out_dim r lora_alpha lora_dropout qlora
      obj Arand).matrix_B.map tShape0 = bRowsSpec part out_dim := by
    rw [← hout]
    simp only [initResult, List.map_map, Function.comp_def, hone, List.map_id,
      List.map_id']
  refine ⟨_, init_ok cls part in_dim out_dim r lora_alpha lora_dropout qlora obj Arand
    hw hr hp, hwidths, ?_, ?_, ?_⟩
  · intro hok
    rw [hwidths]
    exact bRowsSpec_sum part out_dim hok
  · intro k hk
    rw [hwidths, hk]
    rfl
  · intro ns hns
    rw [hwidths, hns]
    rfl

/-- C3 counterexample: with partition 2 and an original layer of 7 output rows, the
construction succeeds and the widths are [3, 3]; they are equal but sum to 6, not
to the out_dim 7, refuting the claim's unconditional "their sum is exactly
out_dim". -/
theorem partition_widths_cex :
    (LoraLinear.init .nnLinear (.int 2) 1 7 1 1 0 false (some cexLayer7)
        (fun _ _ _ => 0)).map (fun st => st.matrix_B.map tShape0) = .ok [3, 3] ∧
      ([3, 3] : List ℕ).sum ≠ 7 := by
  constructor
  · rfl
  · decide


/-! C1: a freshly constructed LoraLinear is forward-transparent. -/

theorem bRowsSpec_length (part : PartitionSpec) (out_dim : ℕ) :
    (bRowsSpec part out_dim).length = partCount part := by
  cases part <;> simp [bRowsSpec, partCount]

theorem mapM_loraPartOut_zero (scal : ℚ) (x1 : List ℚ) (rp : ℕ) :
    ∀ (rowsL : List ℕ) (A B : List Tensor),
      (∀ t ∈ A, ∃ mm, t.data = TData.mat mm) →
      B.map Tensor.data = rowsL.map (fun n => TData.mat (zerosMat n rp)) →
      A.length = rowsL.length →
      (List.zip A B).mapM (loraPartOut scal x1)
        = Except.ok (rowsL.map (fun n => List.replicate n (0 : ℚ))) := by
  intro rowsL
  induction rowsL with
  | nil =>
      intro A B hA hB hlen
      have hBnil : B = [] := by simpa using hB
      have hAnil : A = [] := by
        cases A with
        | nil => rfl
        | cons a t => simp at hlen
      subst hBnil hAnil
      rfl
  | cons n t ih =>
      intro A B hA hB hlen
      cases B with
      | nil => simp at hB
      | cons b BT =>
          cases A with
          | nil => simp at hlen
          | cons a AT =>
              simp only [List.map_cons, List.cons_eq_cons] at hB
              obtain ⟨mm, hmm⟩ := hA a (by simp)
              have hrest := ih AT BT (fun u hu => hA u (by simp [hu])) hB.2 (by simpa using hlen)
              simp only [List.zip_cons_cons, List.mapM_cons, hrest, loraPartOut, getMat,
                hmm, hB.1, ebind_ok, epure, copyToModelParallelRegion]
              rw [matVec_zeros, scaleVec_zero]
              rfl

theorem linForward_initResult (cls : OriginalCls) (part : PartitionSpec)
    (in_dim out_dim r : ℕ) (lora_alpha lora_dropout : ℚ) (qlora : Bool)
    (obj : LinLayer) (Arand : ℕ → ℕ → ℕ → ℚ) (x : List ℚ)
    (hw : WFLinB obj out_dim in_dim = true) :
    ∃ y, linForward (initResult cls part in_dim out_dim r lora_alpha lora_dropout qlora
        obj Arand).original x = .ok y ∧ y.length = out_dim := by
  simp only [WFLinB, Bool.and_eq_true] at hw
  obtain ⟨hwm, hwb⟩ := hw
  cases hd : obj.weight.data with
  | vec v => rw [hd] at hwm; exact absurd hwm (by simp)
  | mat m =>
  rw [hd] at hwm
  simp only at hwm
  simp only [isRectB, Bool.and_eq_true, decide_eq_true_eq, List.all_eq_true] at hwm
  cases hb : obj.bias with
  | none =>
      refine ⟨matVec m x, ?_, by simp [matVec, hwm.1]⟩
      simp [linForward, initResult, getMat, hd, hb, epure, ebind_ok]
  | some ob =>
      rw [hb] at hwb
      simp only at hwb
      cases hbd : ob.data with
      | mat mm => rw [hbd] at hwb; exact absurd hwb (by simp)
      | vec v =>
          rw [hbd] at hwb
          simp only [decide_eq_true_eq] at hwb
          refine ⟨List.zipWith (· + ·) (matVec m x) v, ?_, ?_⟩
          · simp only [linForward, initResult, getMat, getVec, hd, hb, hbd, ebind_ok,
              Option.map_some']
            rw [vecAddE, if_pos (by simp [matVec, hwm.1, hwb])]
          · simp [matVec, hwm.1, hwb]

/-- C1: for every wellformed original layer, rank r > 0, lora_alpha > 0 and exact
partition spec, the forward output of a LoraLinear immediately after construction
equals the output of its wrapped base projection on the same input, for every
dropout oracle: every matrix_B is zero-initialized, so the low-rank delta is
exactly zero. -/
theorem lora_forward_transparent_after_init (cls : OriginalCls) (part : PartitionSpec)
    (in_dim out_dim r : ℕ) (lora_alpha lora_dropout : ℚ) (qlora : Bool)
    (obj : LinLayer) (Arand : ℕ → ℕ → ℕ → ℚ) (dropoutFn : List ℚ → List ℚ)
    (x : List ℚ)
    (hw : WFLinB obj out_dim in_dim = true) (hr : 0 < r) (ha : 0 < lora_alpha)
    (hp : partOkB part out_dim = true) :
    (LoraLinear.init cls part in_dim out_dim r lora_alpha lora_dropout qlora (some obj)
        Arand >>= fun st => loraForward st dropoutFn x)
      = (LoraLinear.init cls part in_dim out_dim r lora_alpha lora_dropout qlora
        (some obj) Arand >>= fun st => linForward st.original x) := by
  have hout := tShape0_of_wf obj out_dim in_dim hw
  rw [init_ok cls part in_dim out_dim r lora_alpha lora_dropout qlora obj Arand hw
    (Nat.pos_iff_ne_zero.mp hr) (partOkB_partDivB part out_dim hp), ebind_ok, ebind_ok]
  obtain ⟨y, hy, hylen⟩ := linForward_initResult cls part in_dim out_dim r lora_alpha
    lora_dropout qlora obj Arand x hw
  rw [loraForward, hy, ebind_ok]
  have houts := mapM_loraPartOut_zero
    (lora_alpha / (r : ℚ))
    (if 0 < lora_dropout then dropoutFn x else x) r
    (bRowsSpec part (tShape0 obj.weight))
    ((List.range (partCount part)).map (fun p =>
      ({ dtype := obj.weight.dtype, device := .cpu,
         data := .mat (ofFnMat r (tShape1 obj.weight) (Arand p)) } : Tensor)))
    ((bRowsSpec part (tShape0 obj.weight)).map (fun n =>
      ({ dtype := obj.weight.dtype, device := .cpu,
         data := .mat (zerosMat n r) } : Tensor)))
    (by
      intro t ht
      simp only [List.mem_map] at ht
      obtain ⟨p, _, rfl⟩ := ht
      exact ⟨_, rfl⟩)
    (by simp [List.map_map, Function.comp_def])
    (by simp [bRowsSpec_length])
  simp only [initResult] at houts ⊢
  rw [houts, ebind_ok]
  rw [catVecs, if_neg (by
    rw [hout]
    simpa using bRowsSpec_ne_nil part out_dim hp), ebind_ok]
  rw [flatten_map_replicate, hout, bRowsSpec_sum part out_dim hp]
  exact (vecAddE_zero_right y out_dim hylen.symm).symm ▸ hy.symm ▸ rfl


/-- C1 witness: the transparency theorem instantiated at a concrete 2 x 2 biased
layer, r = 4, lora_alpha = 4 (scaling 1), partition 1. -/
theorem lora_forward_transparent_witness :
    WFLinB wLayerC1 2 2 = true ∧ partOkB (.int 1) 2 = true ∧
    (LoraLinear.init .nnLinear (.int 1) 2 2 4 4 0 false (some wLayerC1) (fun _ _ _ => 1)
        >>= fun st => loraForward st (fun v => v) [1, 2])
      = (LoraLinear.init .nnLinear (.int 1) 2 2 4 4 0 false (some wLayerC1)
          (fun _ _ _ => 1) >>= fun st => linForward st.original [1, 2]) := by
  refine ⟨by decide, by decide, ?_⟩
  exact lora_forward_transparent_after_init .nnLinear (.int 1) 2 2 4 4 0 false wLayerC1
    (fun _ _ _ => 1) (fun v => v) [1, 2] (by decide) (by decide) (by decide) (by decide)

/-! C2: substitute then merge reproduces the original forward exactly. -/

theorem colsQ_ofFnMat (rows cols : ℕ) (f : ℕ → ℕ → ℚ) (h : rows ≠ 0) :
    colsQ (ofFnMat rows cols f) = cols := by
  cases rows with
  | zero => exact absurd rfl h
  | succ n => simp [colsQ, ofFnMat, List.range_succ_eq_map, List.headD_eq_head?]

theorem isRectB_of_wf (l : LinLayer) (out_dim in_dim : ℕ)
    (h : WFLinB l out_dim in_dim = true) (m : List (List ℚ))
    (hm : l.weight.data = .mat m) : isRectB m out_dim in_dim = true := by
  simp only [WFLinB, Bool.and_eq_true] at h
  have := h.1
  rw [hm] at this
  simpa using this

theorem mapM_mergeBlock_zeros (scal : ℚ) (rp cols : ℕ) :
    ∀ (rowsL : List ℕ) (A B : List Tensor),
      (∀ t ∈ A, ∃ mm, t.data = TData.mat mm ∧ colsQ mm = cols) →
      B.map Tensor.data = rowsL.map (fun n => TData.mat (zerosMat n rp)) →
      A.length = rowsL.length →
      (List.zip A B).mapM (mergeBlock scal)
        = Except.ok (rowsL.map (fun n => zerosMat n cols)) := by
  intro rowsL
  induction rowsL with
  | nil =>
      intro A B hA hB hlen
      have hBnil : B = [] := by simpa using hB
      have hAnil : A = [] := by
        cases A with
        | nil => rfl
        | cons a t => simp at hlen
      subst hBnil hAnil
      rfl
  | cons n t ih =>
      intro A B hA hB hlen
      cases B with
      | nil => simp at hB
      | cons b BT =>
          cases A with
          | nil => simp at hlen
          | cons a AT =>
              simp only [List.map_cons, List.cons_eq_cons] at hB
              obtain ⟨mm, hmm, hcols⟩ := hA a (by simp)
              have hrest := ih AT BT (fun u hu => hA u (by simp [hu])) hB.2 (by simpa using hlen)
              simp only [List.zip_cons_cons, List.mapM_cons, hrest, mergeBlock, getMat,
                hmm, hB.1, ebind_ok, epure]
              rw [matMul_zeros, hcols, scaleMat_zeros]
              rfl

theorem linForward_toDevice (l : LinLayer) (d : Device) (x : List ℚ) :
    linForward (l.toDevice d) x = linForward l x := by
  obtain ⟨cls, ⟨dt, dev, data, qs⟩, b⟩ := l
  cases b with
  | none => rfl
  | some bb => obtain ⟨bdt, bdev, bdata, bqs⟩ := bb; rfl


theorem linForward_eq_of_data (l1 l2 : LinLayer) (x : List ℚ)
    (hW : l1.weight.data = l2.weight.data)
    (hB : l1.bias.map Tensor.data = l2.bias.map Tensor.data) :
    linForward l1 x = linForward l2 x := by
  unfold linForward
  have hget : getMat l1.weight = getMat l2.weight := by
    unfold getMat
    rw [hW]
  rw [hget]
  cases hb1 : l1.bias with
  | none =>
      cases hb2 : l2.bias with
      | none => rfl
      | some b2 => rw [hb1, hb2] at hB; exact absurd hB (by simp)
  | some b1 =>
      cases hb2 : l2.bias with
      | none => rw [hb1, hb2] at hB; exact absurd hB (by simp)
      | some b2 =>
          rw [hb1, hb2] at hB
          simp only [Option.map_some', Option.some.injEq] at hB
          have hgv : getVec b1 = getVec b2 := by
            unfold getVec
            rw [hB]
          simp only [hgv]

/-- C2: for every wellformed dense layer whose stored dtype is not the packed
uint8 type, substituting it via replace_linear_with_lora and immediately merging
via merge_linear_lora yields a plain layer whose forward output on every input
equals the original layer's forward output exactly (the rational model carries no
rounding, so the float tolerance becomes equality). -/
theorem substitute_merge_roundtrip (lin : LinLayer) (part : PartitionSpec)
    (r out_dim in_dim : ℕ) (lora_alpha lora_dropout : ℚ) (cud : Bool)
    (Arand : ℕ → ℕ → ℕ → ℚ) (x : List ℚ)
    (hw : WFLinB lin out_dim in_dim = true) (hdt : lin.weight.dtype ≠ .uint8)
    (hr : r ≠ 0) (hp : partOkB part out_dim = true) :
    ((replace_linear_with_lora lin part r lora_alpha lora_dropout false none none Arand
        >>= merge_linear_lora cud) >>= fun m2 => linForward m2 x)
      = linForward lin x := by
  have hout := tShape0_of_wf lin out_dim in_dim hw
  have hws := WFLinB_self lin out_dim in_dim hw
  have hp2 : partOkB part (tShape0 lin.weight) = true := by rw [hout]; exact hp
  rw [replace_linear_with_lora]
  simp only [ebind_ok]
  rw [init_ok lin.cls part (tShape1 lin.weight) (tShape0 lin.weight) r lora_alpha
    lora_dropout false lin Arand hws hr (partOkB_partDivB part (tShape0 lin.weight) hp2)]
  simp only [ebind_ok, epure]
  obtain ⟨m, hm⟩ : ∃ m, lin.weight.data = TData.mat m := by
    have h1 := hw
    simp only [WFLinB, Bool.and_eq_true] at h1
    cases hd : lin.weight.data with
    | mat mm => exact ⟨mm, rfl⟩
    | vec v =>
        rw [hd] at h1
        exact absurd h1.1 (by simp)
  rw [merge_linear_lora]
  simp only [initResult, LoraState.toDevice, LinLayer.toDevice, Tensor.toDevice,
    List.map_map, Function.comp_def, ebind_ok, epure, hdt, Bool.false_eq_true, if_false,
    ne_eq, not_false_eq_true, if_true]
  have hA : ∀ t ∈ (List.map (fun p =>
        ({ dtype := lin.weight.dtype, device := lin.weight.device,
           data := TData.mat (ofFnMat r (tShape1 lin.weight) (Arand p)),
           quantState := none } : Tensor))
        (List.range (partCount part))),
      ∃ mm, t.data = TData.mat mm ∧ colsQ mm = tShape1 lin.weight := by
    intro t ht
    simp only [List.mem_map] at ht
    obtain ⟨p, _, rfl⟩ := ht
    exact ⟨_, rfl, colsQ_ofFnMat r (tShape1 lin.weight) (Arand p) hr⟩
  have hB : (List.map (fun n =>
        ({ dtype := lin.weight.dtype, device := lin.weight.device,
           data := TData.mat (zerosMat n r), quantState := none } : Tensor))
        (bRowsSpec part (tShape0 lin.weight))).map Tensor.data
      = (bRowsSpec part (tShape0 lin.weight)).map (fun n => TData.mat (zerosMat n r)) := by
    simp [List.map_map, Function.comp_def]
  have hlen : (List.map (fun p =>
        ({ dtype := lin.weight.dtype, device := lin.weight.device,
           data := TData.mat (ofFnMat r (tShape1 lin.weight) (Arand p)),
           quantState := none } : Tensor))
        (List.range (partCount part))).length
      = (bRowsSpec part (tShape0 lin.weight)).length := by
    simp [bRowsSpec_length]
  rw [mapM_mergeBlock_zeros (lora_alpha / (r : ℚ)) r (tShape1 lin.weight)
    (bRowsSpec part (tShape0 lin.weight)) _ _ hA hB hlen, ebind_ok]
  rw [catRows, if_neg (by simpa using bRowsSpec_ne_nil part (tShape0 lin.weight) hp2),
    ebind_ok]
  rw [hm]
  simp only [getMat, ebind_ok]
  have hflat : ((bRowsSpec part (tShape0 lin.weight)).map
      (fun n => zerosMat n (tShape1 lin.weight))).flatten
      = zerosMat (tShape0 lin.weight) (tShape1 lin.weight) := by
    simp only [zerosMat]
    rw [flatten_map_replicate, bRowsSpec_sum part (tShape0 lin.weight) hp2]
  rw [hflat]
  rw [matAddE_zero_right m (tShape0 lin.weight) (tShape1 lin.weight)
    (isRectB_of_wf lin (tShape0 lin.weight) (tShape1 lin.weight) hws m hm), ebind_ok,
    ebind_ok]
  cases cud with
  | true =>
      rw [if_pos rfl]
      refine linForward_eq_of_data _ lin x ?_ ?_
      · exact hm.symm
      · cases lin.bias <;> simp
  | false =>
      rw [if_neg (by decide)]
      refine linForward_eq_of_data _ lin x ?_ ?_
      · exact hm.symm
      · cases lin.bias <;> simp


/-- C2 witness: the round-trip theorem instantiated at a concrete 2 x 2 biased
layer with partition 1, r = 1. -/
theorem substitute_merge_roundtrip_witness :
    WFLinB wLayerC2 2 2 = true ∧
    ((replace_linear_with_lora wLayerC2 (.int 1) 1 1 0 false none none (fun _ _ _ => 1)
        >>= merge_linear_lora false) >>= fun m2 => linForward m2 [1, 1])
      = linForward wLayerC2 [1, 1] := by
  refine ⟨by decide, ?_⟩
  exact substitute_merge_roundtrip wLayerC2 (.int 1) 1 2 2 1 0 false (fun _ _ _ => 1)
    [1, 1] (by decide) (by decide) (by decide) (by decide)

/-! C4: dual-mode restore. -/

/-- C4: the LoraLinear restore is dual-mode: with the flat prefix+weight key it
delegates entirely to the inner base projection's restore at the same prefix and
leaves both factor-pair lists untouched; without it, it delegates to the generic
structured per-submodule restore. The second conjunct runs the legacy-checkpoint
scenario: flat weight and bias values land in the wrapped base projection and the
factor pairs keep their initialization values. -/
theorem lora_restore_dual_mode :
    (∀ (sd : StateDict) (pfx : String) (st : LoraState),
      LoraLinear.loadFromStateDict sd pfx st = restoreDualModeSpec sd pfx st) ∧
    (LoraLinear.loadFromStateDict c4Dict "p." c4State).map
        (fun s => (s.original.weight.data, s.original.bias.map Tensor.data,
          s.matrix_A, s.matrix_B))
      = .ok (TData.mat [[1, 2], [3, 4]], some (TData.vec [5, 6]),
          c4State.matrix_A, c4State.matrix_B) := by
  constructor
  · intro sd pfx st
    unfold LoraLinear.loadFromStateDict restoreDualModeSpec
    by_cases h : hasKey sd (pfx ++ "weight") = true
    · rw [if_pos h, if_pos h]
      cases hres : HackLinear.loadFromStateDict sd pfx st.original with
      | error e => rfl
      | ok o => rfl
    · rw [if_neg h, if_neg h]
  · rfl

/-! C7: wrapper restore copies present keys in place and skips absent keys. -/

theorem paramList_loadAux_spec (sd : StateDict) (pfx : String) :
    ∀ (ps : List Tensor) (i : ℕ),
      shapeOkList sd pfx i ps = true →
      HackParameterList.loadAux sd pfx i ps
        = .ok (hackParamListLoadSpec sd pfx i ps) := by
  intro ps
  induction ps with
  | nil => intro i h; rfl
  | cons p pt ih =>
      intro i h
      simp only [shapeOkList, Bool.and_eq_true] at h
      unfold HackParameterList.loadAux hackParamListLoadSpec
      cases hk : sd.lookup (pfx ++ toString i) with
      | none =>
          simp only [ih (i + 1) h.2, ebind_ok, epure]
      | some t =>
          rw [hk] at h
          have hsh : t.data.shape = p.data.shape := by simpa using h.1
          simp only [copyT, if_pos hsh.symm, ebind_ok, ih (i + 1) h.2, epure]

/-- C7: for every checkpoint mapping and prefix whose present keys carry
shape-compatible tensors, the wrapper restore copies each present key's tensor in
place into the existing parameter storage, preserving the destination's dtype,
device and quantization state and taking only the source's values, and silently
skips every absent key: the restore always succeeds and equals the total copy-or-
skip contract, for the dense wrapper and for the parameter list alike. -/
theorem wrapper_restore_copy_and_skip (sd : StateDict) (pfx : String)
    (l : LinLayer) (ps : List Tensor)
    (h1 : shapeOkLin sd pfx l = true) (h2 : shapeOkList sd pfx 0 ps = true) :
    HackLinear.loadFromStateDict sd pfx l = .ok (hackLinearLoadSpec sd pfx l) ∧
    HackParameterList.loadFromStateDict sd pfx ps
      = .ok (hackParamListLoadSpec sd pfx 0 ps) := by
  refine ⟨?_, paramList_loadAux_spec sd pfx ps 0 h2⟩
  obtain ⟨lcls, lw, lb⟩ := l
  simp only [shapeOkLin, Bool.and_eq_true] at h1
  obtain ⟨h1w, h1b⟩ := h1
  unfold HackLinear.loadFromStateDict hackLinearLoadSpec
  cases hw : sd.lookup (pfx ++ "weight") with
  | none =>
      cases hb : sd.lookup (pfx ++ "bias") with
      | none => cases lb <;> rfl
      | some t =>
          rw [hb] at h1b
          cases lb with
          | none => exact absurd h1b (by simp)
          | some b =>
              have hsh : t.data.shape = b.data.shape := by simpa using h1b
              simp only [ebind_ok, epure, copyT, if_pos hsh.symm]
  | some t =>
      rw [hw] at h1w
      have hshw : t.data.shape = lw.data.shape := by simpa using h1w
      simp only [copyT, if_pos hshw.symm, ebind_ok, epure]
      cases hb : sd.lookup (pfx ++ "bias") with
      | none => cases lb <;> rfl
      | some tb =>
          rw [hb] at h1b
          cases lb with
          | none => exact absurd h1b (by simp)
          | some b =>
              have hsh : tb.data.shape = b.data.shape := by simpa using h1b
              simp only [ebind_ok, epure, copyT, if_pos hsh.symm]

/-- C7 witness: the wrapper contract at a concrete checkpoint that has the weight
key but no bias key for the dense layer, and index 1 but not index 0 for the
parameter list. -/
theorem wrapper_restore_witness :
    shapeOkLin c7Dict "q." c7Layer = true ∧ shapeOkList c7Dict "q." 0 c7Params = true ∧
    (HackLinear.loadFromStateDict c7Dict "q." c7Layer
        = .ok (hackLinearLoadSpec c7Dict "q." c7Layer) ∧
      HackParameterList.loadFromStateDict c7Dict "q." c7Params
        = .ok (hackParamListLoadSpec c7Dict "q." 0 c7Params)) := by
  refine ⟨by rfl, by rfl, ?_⟩
  exact wrapper_restore_copy_and_skip c7Dict "q." c7Layer c7Params (by rfl) (by rfl)


/-! C8: restore idempotence. -/

theorem copyT_idem (dst src w : Tensor) (h : copyT dst src = .ok w) :
    copyT w src = .ok w := by
  unfold copyT at h ⊢
  by_cases hs : dst.data.shape = src.data.shape
  · rw [if_pos hs] at h
    injection h with h
    subst h
    rw [if_pos rfl]
  · rw [if_neg hs] at h
    exact absurd h (by simp)

theorem hackLinearLoadFn_eq (sd : StateDict) (pfx : String) (l : LinLayer) :
    HackLinear.loadFromStateDict sd pfx l = hackLinearLoadFn sd pfx l := by
  obtain ⟨lcls, lw, lb⟩ := l
  unfold HackLinear.loadFromStateDict hackLinearLoadFn
  cases hw : sd.lookup (pfx ++ "weight") with
  | none =>
      cases hb : sd.lookup (pfx ++ "bias") with
      | none => cases lb <;> rfl
      | some tb =>
          try dsimp only
          cases lb with
          | none => rfl
          | some b =>
              cases copyT b tb <;> rfl
  | some tw =>
      cases hb : sd.lookup (pfx ++ "bias") with
      | none =>
          try dsimp only
          cases copyT lw tw <;> rfl
      | some tb =>
          try dsimp only
          cases hcw : copyT lw tw with
          | error e => rfl
          | ok w =>
              try dsimp only
              cases lb with
              | none => rfl
              | some b =>
                  cases copyT b tb <;> rfl

theorem hackLinearLoadFn_idem (sd : StateDict) (pfx : String) (l : LinLayer) :
    (hackLinearLoadFn sd pfx l).bind (hackLinearLoadFn sd pfx)
      = hackLinearLoadFn sd pfx l := by
  obtain ⟨lcls, lw, lb⟩ := l
  unfold hackLinearLoadFn
  cases hw : sd.lookup (pfx ++ "weight") with
  | none =>
      cases hb : sd.lookup (pfx ++ "bias") with
      | none => rfl
      | some tb =>
          try dsimp only
          cases lb with
          | none => rfl
          | some b =>
              try dsimp only
              cases hc : copyT b tb with
              | error e => rfl
              | ok b1 =>
                  try dsimp only
                  simp only [hc, Except.map, Except.bind, copyT_idem b tb b1 hc]
  | some tw =>
      try dsimp only
      cases hcw : copyT lw tw with
      | error e =>
          cases hb : sd.lookup (pfx ++ "bias") <;>
            simp [hcw, Except.map, Except.bind]
      | ok w =>
          cases hb : sd.lookup (pfx ++ "bias") with
          | none =>
              try dsimp only
              simp only [hcw, Except.map, Except.bind, copyT_idem lw tw w hcw]
          | some tb =>
              try dsimp only
              cases lb with
              | none => simp [hcw, Except.bind]
              | some b =>
                  try dsimp only
                  cases hc : copyT b tb with
                  | error e => simp [hcw, hc, Except.map, Except.bind]
                  | ok b1 =>
                      try dsimp only
                      simp only [hcw, hc, Except.map, Except.bind,
                        copyT_idem lw tw w hcw, copyT_idem b tb b1 hc]

theorem hackLinear_load_idem (sd : StateDict) (pfx : String) (l l2 : LinLayer)
    (h : HackLinear.loadFromStateDict sd pfx l = .ok l2) :
    HackLinear.loadFromStateDict sd pfx l2 = .ok l2 := by
  rw [hackLinearLoadFn_eq] at h ⊢
  have h2 := hackLinearLoadFn_idem sd pfx l
  rw [h] at h2
  exact h2

theorem paramListAux_idem_eq (sd : StateDict) (pfx : String) :
    ∀ (ps : List Tensor) (i : ℕ),
      (HackParameterList.loadAux sd pfx i ps).bind (HackParameterList.loadAux sd pfx i)
        = HackParameterList.loadAux sd pfx i ps := by
  intro ps
  induction ps with
  | nil => intro i; rfl
  | cons p pt ih =>
      intro i
      simp only [HackParameterList.loadAux]
      cases hk : sd.lookup (pfx ++ toString i) with
      | none =>
          try dsimp only
          cases hrest : HackParameterList.loadAux sd pfx (i + 1) pt with
          | error e => simp [hrest, ebind_ok, ebind_err, emap_ok, emap_err, epure, Except.bind]
          | ok rest =>
              have ih2 := ih (i + 1)
              rw [hrest] at ih2
              simp only [Except.bind] at ih2
              simp only [hrest, epure, ebind_ok, ebind_err, emap_ok, emap_err, Except.bind]
              simp only [HackParameterList.loadAux]
              try rw [hk]
              simp only [ih2, epure, ebind_ok, ebind_err, emap_ok, emap_err, Except.bind]
      | some t =>
          try dsimp only
          cases hc : copyT p t with
          | error e => simp [hc, ebind_ok, ebind_err, emap_ok, emap_err, epure, Except.bind]
          | ok p1 =>
              cases hrest : HackParameterList.loadAux sd pfx (i + 1) pt with
              | error e => simp [hc, hrest, ebind_ok, ebind_err, emap_ok, emap_err, epure, Except.bind]
              | ok rest =>
                  have ih2 := ih (i + 1)
                  rw [hrest] at ih2
                  simp only [Except.bind] at ih2
                  simp only [hc, hrest, ebind_ok, ebind_err, emap_ok, emap_err, epure, Except.bind]
                  simp only [HackParameterList.loadAux]
                  try rw [hk]
                  simp only [copyT_idem p t p1 hc, ih2, ebind_ok, ebind_err, emap_ok, emap_err, epure, Except.bind]

theorem paramListAux_idem (sd : StateDict) (pfx : String) (ps ps2 : List Tensor)
    (i : ℕ) (h : HackParameterList.loadAux sd pfx i ps = .ok ps2) :
    HackParameterList.loadAux sd pfx i ps2 = .ok ps2 := by
  have h2 := paramListAux_idem_eq sd pfx ps i
  rw [h] at h2
  exact h2

theorem structuredRestore_idem (sd : StateDict) (pfx : String) (st st2 : LoraState)
    (h : structuredRestore sd pfx st = .ok st2) :
    structuredRestore sd pfx st2 = .ok st2 := by
  unfold structuredRestore at h ⊢
  cases ho : HackLinear.loadFromStateDict sd (pfx ++ "original.") st.original with
  | error e => try rw [ho] at h
               exact absurd h (by simp [ebind_ok, ebind_err, emap_ok, emap_err, epure])
  | ok o =>
      try rw [ho] at h
      simp only [ebind_ok, ebind_err, emap_ok, emap_err, epure] at h
      cases hA : HackParameterList.loadFromStateDict sd (pfx ++ "matrix_A.")
          st.matrix_A with
      | error e => try rw [hA] at h
                   exact absurd h (by simp [ebind_ok, ebind_err, emap_ok, emap_err, epure])
      | ok mA =>
          try rw [hA] at h
          simp only [ebind_ok, ebind_err, emap_ok, emap_err, epure] at h
          cases hB : HackParameterList.loadFromStateDict sd (pfx ++ "matrix_B.")
              st.matrix_B with
          | error e => try rw [hB] at h
                       exact absurd h (by simp [ebind_ok, ebind_err, emap_ok, emap_err, epure])
          | ok mB =>
              try rw [hB] at h
              simp only [ebind_ok, ebind_err, emap_ok, emap_err, epure] at h
              injection h with h
              subst h
              simp only [hackLinear_load_idem sd (pfx ++ "original.") st.original o ho,
                ebind_ok, emap_ok]
              unfold HackParameterList.loadFromStateDict at hA hB ⊢
              simp only [paramListAux_idem sd (pfx ++ "matrix_A.") st.matrix_A mA 0 hA,
                paramListAux_idem sd (pfx ++ "matrix_B.") st.matrix_B mB 0 hB,
                ebind_ok, emap_ok, epure]

/-- C8: applying the LoraLinear restore twice with the same checkpoint mapping and
prefix produces exactly the state one application produces, on every state and
mapping (errors included, which propagate unchanged). -/
theorem lora_restore_idempotent (sd : StateDict) (pfx : String) (st : LoraState) :
    (LoraLinear.loadFromStateDict sd pfx st >>= fun st1 =>
      LoraLinear.loadFromStateDict sd pfx st1)
      = LoraLinear.loadFromStateDict sd pfx st := by
  by_cases h : hasKey sd (pfx ++ "weight") = true
  · unfold LoraLinear.loadFromStateDict
    simp only [h, if_true]
    cases ho : HackLinear.loadFromStateDict sd pfx st.original with
    | error e => rfl
    | ok o =>
        simp only [ebind_ok, epure]
        have := hackLinear_load_idem sd pfx st.original o ho
        simp only [this, ebind_ok, epure]
  · unfold LoraLinear.loadFromStateDict
    simp only [h, if_false]
    cases hs : structuredRestore sd pfx st with
    | error e => rfl
    | ok st2 =>
        try simp only [ebind_ok]
        exact structuredRestore_idem sd pfx st st2 hs


/-! C5: the merge engine dtype rule. -/

/-- C5 (amended): merge_linear_lora's dtype rule. When the stored base weight is
not packed uint8, dequantization is skipped: the stored weight feeds the fusion
directly and the fused weight is cast to the guess dtype (bias dtype if a bias
exists, else the stored weight dtype, uint8 falling back to float32). When the
stored weight is packed uint8 and a bias exists, the weight is dequantized
through its bound quantization state, cast to the bias dtype, and fused the same
way. When the stored weight is packed uint8 and there is no bias, the merge
fails with AttributeError: the code reads the bias dtype unconditionally in this
branch, so the claim's fallback to the weight's own dtype never happens. -/
theorem merge_guess_dtype (cud : Bool) (lin : LoraState) :
    (lin.original.weight.dtype ≠ DType.uint8 →
      merge_linear_lora cud lin
        = (do
            let delta ← deltaSpec lin
            let wM ← getMat lin.original.weight
            let fused ← matAddE wM delta
            pure (mkMerged cud (guessDType lin) lin.original.weight.device fused
              lin.original.bias))) ∧
    (∀ qs b, lin.original.weight.dtype = DType.uint8 →
      lin.original.weight.quantState = some qs → lin.original.bias = some b →
      merge_linear_lora cud lin
        = (do
            let delta ← deltaSpec lin
            let fused ← matAddE qs.dequant delta
            pure (mkMerged cud (guessDType lin) Device.cpu fused lin.original.bias))) ∧
    (lin.original.weight.dtype = DType.uint8 → lin.original.bias = none →
      merge_linear_lora cud lin = .error .attributeError) := by
  refine ⟨?_, ?_, ?_⟩
  · intro hdt
    unfold merge_linear_lora deltaSpec mkMerged guessDType
    rw [if_pos hdt]
    simp only [ebind_ok, epure]
    cases hbl : (List.zip lin.matrix_A lin.matrix_B).mapM (mergeBlock lin.scaling) with
    | error e => rfl
    | ok blocks =>
        cases hcat : catRows blocks with
        | error e => rfl
        | ok delta =>
            cases hwm : getMat lin.original.weight with
            | error e => rfl
            | ok wM =>
                cases hf : matAddE wM delta with
                | error e => rfl
                | ok fused => rfl
  · intro qs b hdt hqs hbias
    unfold merge_linear_lora deltaSpec mkMerged guessDType
    rw [if_neg (fun hne => hne hdt)]
    rw [hqs, hbias]
    simp only [ebind_ok, epure, dequantize_fp4, Tensor.cast]
    cases hbl : (List.zip lin.matrix_A lin.matrix_B).mapM (mergeBlock lin.scaling) with
    | error e => rfl
    | ok blocks =>
        cases hcat : catRows blocks with
        | error e => rfl
        | ok delta =>
            cases hf : matAddE qs.dequant delta with
            | error e => rfl
            | ok fused => rfl
  · intro hdt hbias
    unfold merge_linear_lora
    rw [if_neg (fun hne => hne hdt)]
    cases hqs : lin.original.weight.quantState with
    | none => rfl
    | some qs =>
        try dsimp only
        rw [hbias]
        rfl


/-- C5 counterexample: merging a packed (uint8) layer without a bias raises
AttributeError (lin.original.bias.data on None), where the claim instead promises
a successful dequantization cast to the weight's own dtype with a float32
fallback. -/
theorem merge_guess_dtype_cex :
    merge_linear_lora false c5State = .error .attributeError := rfl


/-- C3 witness: the [1, 3] list partition on an 8-row layer gives widths [2, 6],
which sum to 8. -/
theorem partition_widths_witness :
    WFLinB wLayer8 8 4 = true ∧
    ∃ st, LoraLinear.init .nnLinear (.list [1, 3]) 4 8 1 1 0 false (some wLayer8)
        (fun _ _ _ => 0) = .ok st ∧ st.matrix_B.map tShape0 = [2, 6] := by
  refine ⟨by decide, ?_⟩
  obtain ⟨st, hst, hw2, hsum, hint, hlist⟩ := partition_widths .nnLinear (.list [1, 3])
    4 8 1 1 0 false wLayer8 (fun _ _ _ => 0) (by decide) (by decide) (by decide)
  refine ⟨st, hst, ?_⟩
  rw [hlist [1, 3] rfl]
  decide

/-! C9: construction requires a non-null original layer. -/

/-- C9: every LoraLinear construction call with original_obj absent fails
immediately with the assertion error, before any state is built, whatever the
remaining arguments are. -/
theorem loraLinear_init_none_fails (cls : OriginalCls) (part : PartitionSpec)
    (in_dim out_dim r : ℕ) (lora_alpha lora_dropout : ℚ) (qlora : Bool)
    (Arand : ℕ → ℕ → ℕ → ℚ) :
    LoraLinear.init cls part in_dim out_dim r lora_alpha lora_dropout qlora none Arand
      = .error .assertionError := rfl

/-! C10: LoraMixin with the default rank r = 0 divides by zero. -/

/-- C10: constructing LoraMixin with the default rank r = 0 raises
ZeroDivisionError because scaling = lora_alpha / r is computed eagerly in
__init__, and consequently every successful construction has r different
from 0. -/
theorem loraMixin_init_zero_r :
    (∀ (layer_num : ℕ) (lora_alpha lora_dropout : ℚ)
        (layer_range : Option (List ℕ)) (qlora cross_attention : Bool),
        LoraMixin.init layer_num 0 lora_alpha lora_dropout layer_range qlora
            cross_attention = .error .zeroDivisionError) ∧
    (∀ (layer_num r : ℕ) (lora_alpha lora_dropout : ℚ)
        (layer_range : Option (List ℕ)) (qlora cross_attention : Bool)
        (st : LoraMixinState),
        LoraMixin.init layer_num r lora_alpha lora_dropout layer_range qlora
            cross_attention = .ok st → r ≠ 0) := by
  constructor
  · intro ln la ld lr q ca
    simp [LoraMixin.init, pydiv]
  · intro ln r la ld lr q ca st h hr
    subst hr
    simp [LoraMixin.init, pydiv] at h


/-! Heap lemmas for the nf4 conversion walk. -/

theorem lookup_cons_self {α β : Type} [BEq α] [LawfulBEq α] (k : α) (v : β)
    (c : List (α × β)) : ((k, v) :: c).lookup k = some v := by
  simp [List.lookup]

theorem lookup_cons_ne {α β : Type} [BEq α] [LawfulBEq α] (k j : α) (v : β)
    (c : List (α × β)) (hne : j ≠ k) : ((k, v) :: c).lookup j = c.lookup j := by
  have hb : (j == k) = false := beq_eq_false_iff_ne.mpr hne
  simp [List.lookup, hb]

theorem lookup_mem {α β : Type} [BEq α] [LawfulBEq α] :
    ∀ (l : List (α × β)) (j : α) (o : β), l.lookup j = some o → (j, o) ∈ l := by
  intro l
  induction l with
  | nil => intro j o hj; simp [List.lookup] at hj
  | cons p rest ih =>
      intro j o hj
      obtain ⟨k, b⟩ := p
      by_cases hjk : j = k
      · subst hjk
        rw [lookup_cons_self] at hj
        cases hj
        exact List.mem_cons_self _ _
      · rw [lookup_cons_ne k j b rest hjk] at hj
        exact List.mem_cons_of_mem _ (ih j o hj)

theorem lookup_map_setattr :
    ∀ (l : List (ℕ × Obj)) (mid j : ℕ) (n : String) (v : ℕ),
      (l.map (fun p => if p.1 = mid then (p.1, setChild p.2 n v) else p)).lookup j
        = if j = mid then (l.lookup j).map (fun o => setChild o n v) else l.lookup j := by
  intro l
  induction l with
  | nil => intro mid j n v; by_cases hj : j = mid <;> simp [List.lookup, hj]
  | cons p rest ih =>
      intro mid j n v
      obtain ⟨k, o⟩ := p
      simp only [List.map_cons]
      by_cases hk : k = mid
      · subst hk
        by_cases hj : j = k
        · subst hj
          rw [if_pos rfl, lookup_cons_self, if_pos rfl, lookup_cons_self]
          rfl
        · rw [if_pos rfl, lookup_cons_ne _ _ _ _ hj, ih, if_neg hj, if_neg hj]
          exact (lookup_cons_ne _ _ _ _ hj).symm
      · by_cases hj : j = k
        · subst hj
          rw [if_neg hk, lookup_cons_self, if_neg hk, lookup_cons_self]
        · rw [if_neg hk, lookup_cons_ne _ _ _ _ hj, ih, lookup_cons_ne _ _ _ _ hj]

theorem Heap.get_setattr (h : Heap) (mid : ℕ) (n : String) (v : ℕ) (j : ℕ) :
    (h.setattr mid n v).get j
      = if j = mid then (h.get j).map (fun o => setChild o n v) else h.get j :=
  lookup_map_setattr h.objs mid j n v

theorem Heap.get_setattr_ne (h : Heap) (mid : ℕ) (n : String) (v : ℕ) (j : ℕ)
    (hj : j ≠ mid) : (h.setattr mid n v).get j = h.get j := by
  rw [Heap.get_setattr, if_neg hj]

theorem Heap.get_alloc (h : Heap) (o : Obj) (j : ℕ) :
    (h.alloc o).get j = if j = h.next then some o else h.get j := by
  by_cases hj : j = h.next
  · subst hj
    rw [if_pos rfl]
    exact lookup_cons_self h.next o h.objs
  · show ((h.next, o) :: h.objs).lookup j = _
    rw [lookup_cons_ne _ _ _ _ hj, if_neg hj]
    rfl

theorem next_setattr (h : Heap) (mid : ℕ) (n : String) (v : ℕ) :
    (h.setattr mid n v).next = h.next := rfl

theorem next_alloc (h : Heap) (o : Obj) : (h.alloc o).next = h.next + 1 := rfl

theorem get_lt_next (h : Heap) (hwf : WFHeapB h = true) (j : ℕ) (o : Obj)
    (hg : h.get j = some o) : j < h.next := by
  have hm : (j, o) ∈ h.objs := lookup_mem h.objs j o hg
  have hall := (Bool.and_elim_right hwf)
  rw [List.all_eq_true] at hall
  have := hall (j, o) hm
  exact of_decide_eq_true this

theorem WFHeapB_keys (h : Heap) (hwf : WFHeapB h = true) :
    (h.objs.map Prod.fst).Nodup :=
  of_decide_eq_true (Bool.and_elim_left hwf)

theorem WFHeapB_alloc (h : Heap) (o : Obj) (hwf : WFHeapB h = true) :
    WFHeapB (h.alloc o) = true := by
  have hnd := WFHeapB_keys h hwf
  have hall := Bool.and_elim_right hwf
  rw [List.all_eq_true] at hall
  apply Bool.and_intro
  · apply decide_eq_true
    show (h.next :: h.objs.map Prod.fst).Nodup
    refine List.nodup_cons.mpr ⟨?_, hnd⟩
    intro hmem
    obtain ⟨p, hp, hfst⟩ := List.mem_map.mp hmem
    have := of_decide_eq_true (hall p hp)
    omega
  · rw [List.all_eq_true]
    intro p hp
    apply decide_eq_true
    rcases List.mem_cons.mp hp with hph | hpt
    · subst hph
      show h.next < h.next + 1
      omega
    · have := of_decide_eq_true (hall p hpt)
      show p.1 < h.next + 1
      omega

theorem WFHeapB_setattr (h : Heap) (mid : ℕ) (n : String) (v : ℕ)
    (hwf : WFHeapB h = true) : WFHeapB (h.setattr mid n v) = true := by
  have hkeys : (h.setattr mid n v).objs.map Prod.fst = h.objs.map Prod.fst := by
    show (h.objs.map _).map Prod.fst = _
    rw [List.map_map]
    apply List.map_congr_left
    intro p _
    by_cases hp : p.1 = mid <;> simp [hp]
  have hall := Bool.and_elim_right hwf
  rw [List.all_eq_true] at hall
  apply Bool.and_intro
  · apply decide_eq_true
    rw [hkeys]
    exact WFHeapB_keys h hwf
  · rw [List.all_eq_true]
    intro p hp
    apply decide_eq_true
    obtain ⟨q, hq, hqe⟩ := List.mem_map.mp hp
    have := of_decide_eq_true (hall q hq)
    show p.1 < (h.setattr mid n v).next
    rw [next_setattr]
    by_cases hqm : q.1 = mid
    · rw [if_pos hqm] at hqe
      rw [← hqe]
      simpa [hqm] using this
    · rw [if_neg hqm] at hqe
      rw [← hqe]
      exact this

/-! named_children deduplication lemmas. -/

theorem dedup_sublist : ∀ (l : List (String × ℕ)) (seen : List ℕ),
    (dedupById l seen).Sublist l := by
  intro l
  induction l with
  | nil => intro seen; simp [dedupById]
  | cons p rest ih =>
      intro seen
      obtain ⟨n, i⟩ := p
      rw [dedupById]
      by_cases hi : i ∈ seen
      · rw [if_pos hi]
        exact (ih seen).cons (n, i)
      · rw [if_neg hi]
        exact (ih (i :: seen)).cons₂ (n, i)

theorem dedup_mem (l : List (String × ℕ)) (seen : List ℕ) (p : String × ℕ)
    (hp : p ∈ dedupById l seen) : p ∈ l :=
  (dedup_sublist l seen).mem hp

theorem dedup_cover : ∀ (l : List (String × ℕ)) (seen : List ℕ) (t : ℕ),
    (∃ n, (n, t) ∈ l) → t ∈ seen ∨ ∃ nn, (nn, t) ∈ dedupById l seen := by
  intro l
  induction l with
  | nil =>
      intro seen t ht
      obtain ⟨n, hn⟩ := ht
      simp at hn
  | cons p rest ih =>
      intro seen t ht
      obtain ⟨n0, hn0⟩ := ht
      obtain ⟨n, i⟩ := p
      rw [dedupById]
      rcases List.mem_cons.mp hn0 with hh | htl
      · have hti : t = i := congrArg Prod.snd hh
        subst hti
        by_cases hi : t ∈ seen
        · exact Or.inl hi
        · rw [if_neg hi]
          exact Or.inr ⟨n, List.mem_cons_self _ _⟩
      · by_cases hi : i ∈ seen
        · rw [if_pos hi]
          exact ih seen t ⟨n0, htl⟩
        · rw [if_neg hi]
          rcases ih (i :: seen) t ⟨n0, htl⟩ with hs | ⟨nn, hnn⟩
          · rcases List.mem_cons.mp hs with hti | hts
            · subst hti
              exact Or.inr ⟨n, List.mem_cons_self _ _⟩
            · exact Or.inl hts
          · exact Or.inr ⟨nn, List.mem_cons_of_mem _ hnn⟩

theorem mem_lookup_nodup {β : Type} :
    ∀ (l : List (String × β)), (l.map Prod.fst).Nodup →
      ∀ (n : String) (t : β), (n, t) ∈ l → l.lookup n = some t := by
  intro l
  induction l with
  | nil => intro _ n t hm; simp at hm
  | cons p rest ih =>
      intro hnd n t hm
      obtain ⟨n0, t0⟩ := p
      rw [List.map_cons, List.nodup_cons] at hnd
      rcases List.mem_cons.mp hm with hh | htl
      · cases hh
        exact lookup_cons_self _ _ _
      · have hne : n ≠ n0 := by
          intro he
          subst he
          exact hnd.1 (List.mem_map.mpr ⟨(n, t), htl, rfl⟩)
        rw [lookup_cons_ne _ _ _ _ hne]
        exact ih hnd.2 n t htl

theorem mem_unique_nodup {β : Type} (l : List (String × β))
    (hnd : (l.map Prod.fst).Nodup) (n : String) (t : β) (p : String × β)
    (hm : (n, t) ∈ l) (hp : p ∈ l) (hp1 : p.1 = n) : p = (n, t) := by
  have h1 := mem_lookup_nodup l hnd n t hm
  have h2 := mem_lookup_nodup l hnd p.1 p.2 (by rw [Prod.mk.eta]; exact hp)
  rw [hp1, h1] at h2
  cases h2
  rw [← hp1, Prod.mk.eta]

/-! Reductions of the conversion walk on leaf modules. -/

theorem convert_linear (f : ℕ) (h : Heap) (c : Cache) (i : ℕ) (dd : LinData)
    (hi : h.get i = some (Obj.linear dd)) :
    convert (f + 1) h c i = some (h.alloc (Obj.nf4 dd), c, h.next) := by
  rw [convert, hi]

theorem convert_nf4 (f : ℕ) (h : Heap) (c : Cache) (i : ℕ) (dd : LinData)
    (hi : h.get i = some (Obj.nf4 dd)) :
    convert (f + 1) h c i = some (h, c, i) := by
  rw [convert, hi]
  simp only [namedChildren, childCount, hi, dedupById, convertChildren, whilePass,
    scanPass, Option.bind_eq_bind, Option.bind_some, Option.some_bind]
  simp

/-! Invariant preservation lemmas for the conversion walk over a flat container. -/

theorem root_update (cs : List (String × ℕ)) (root : ℕ) (h : Heap) (c : Cache)
    (names : List String) (n : String) (t v : ℕ)
    (hnd : (cs.map Prod.fst).Nodup) (hm : (n, t) ∈ cs) (hn : n ∉ names)
    (hc : c.lookup t = some v)
    (hroot : h.get root = some (Obj.container (cs.map (fun p =>
      (p.1, if p.1 ∈ names then (c.lookup p.2).getD p.2 else p.2))))) :
    (h.setattr root n v).get root = some (Obj.container (cs.map (fun p =>
      (p.1, if p.1 ∈ (n :: names) then (c.lookup p.2).getD p.2 else p.2)))) := by
  rw [Heap.get_setattr, if_pos rfl, hroot]
  show some (Obj.container _) = some (Obj.container _)
  congr 1
  show Obj.container _ = _
  rw [List.map_map]
  congr 1
  apply List.map_congr_left
  intro p hp
  by_cases hpn : p.1 = n
  · have hpe : p = (n, t) := mem_unique_nodup cs hnd n t p hm hp hpn
    rw [hpe]
    show (if n = n then _ else _) = _
    rw [if_pos rfl, if_pos (List.mem_cons_self n names), hc]
    rfl
  · show (if (p.1, _).1 = n then _ else _) = _
    rw [if_neg hpn]
    simp only [List.mem_cons, hpn, false_or]

theorem root_reindex (cs : List (String × ℕ)) (root : ℕ) (h : Heap) (c : Cache)
    (names : List String) (t0 nid : ℕ)
    (hnone : c.lookup t0 = none)
    (hdom : ∀ p ∈ cs, p.1 ∈ names → (c.lookup p.2).isSome = true)
    (hroot : h.get root = some (Obj.container (cs.map (fun p =>
      (p.1, if p.1 ∈ names then (c.lookup p.2).getD p.2 else p.2))))) :
    h.get root = some (Obj.container (cs.map (fun p =>
      (p.1, if p.1 ∈ names then (((t0, nid) :: c).lookup p.2).getD p.2 else p.2)))) := by
  rw [hroot]
  congr 1
  congr 1
  apply List.map_congr_left
  intro p hp
  by_cases hpm : p.1 ∈ names
  · rw [if_pos hpm, if_pos hpm]
    have hne : p.2 ≠ t0 := by
      intro he
      have := hdom p hp hpm
      rw [he, hnone] at this
      cases this
    rw [lookup_cons_ne _ _ _ _ hne]
  · rw [if_neg hpm, if_neg hpm]

theorem CacheOK_setattr (h : Heap) (c : Cache) (root : ℕ) (n : String) (v : ℕ)
    (L : List (String × ℕ)) (hok : CacheOK h c)
    (hroot : h.get root = some (Obj.container L)) :
    CacheOK (h.setattr root n v) c := by
  intro o w hw
  rcases hok o w hw with ⟨dd, ho, hv2⟩ | ⟨hvo, dd, ho⟩
  · have hone : o ≠ root := by
      intro he
      rw [he, hroot] at ho
      simp at ho
    have hwne : w ≠ root := by
      intro he
      rw [he, hroot] at hv2
      simp at hv2
    exact Or.inl ⟨dd, by rw [Heap.get_setattr_ne _ _ _ _ _ hone]; exact ho,
      by rw [Heap.get_setattr_ne _ _ _ _ _ hwne]; exact hv2⟩
  · have hone : o ≠ root := by
      intro he
      rw [he, hroot] at ho
      simp at ho
    exact Or.inr ⟨hvo, dd, by rw [Heap.get_setattr_ne _ _ _ _ _ hone]; exact ho⟩

theorem CacheOK_alloc (h : Heap) (c : Cache) (o2 : Obj) (hwf : WFHeapB h = true)
    (hok : CacheOK h c) : CacheOK (h.alloc o2) c := by
  intro o w hw
  rcases hok o w hw with ⟨dd, ho, hv2⟩ | ⟨hvo, dd, ho⟩
  · have h1 : o ≠ h.next := Nat.ne_of_lt (get_lt_next h hwf o _ ho)
    have h2 : w ≠ h.next := Nat.ne_of_lt (get_lt_next h hwf w _ hv2)
    exact Or.inl ⟨dd, by rw [Heap.get_alloc, if_neg h1]; exact ho,
      by rw [Heap.get_alloc, if_neg h2]; exact hv2⟩
  · have h1 : o ≠ h.next := Nat.ne_of_lt (get_lt_next h hwf o _ ho)
    exact Or.inr ⟨hvo, dd, by rw [Heap.get_alloc, if_neg h1]; exact ho⟩

theorem CExt_refl (c : Cache) : CExt c c := fun _ _ hv => hv

theorem CExt_cons (c : Cache) (t nid : ℕ) (hnone : c.lookup t = none) :
    CExt c ((t, nid) :: c) := by
  intro o v hv
  have hot : o ≠ t := by
    intro he
    rw [he, hnone] at hv
    cases hv
  rw [lookup_cons_ne _ _ _ _ hot]
  exact hv

theorem CExt_trans (a b c : Cache) (h1 : CExt a b) (h2 : CExt b c) : CExt a c :=
  fun o v hv => h2 o v (h1 o v hv)

/-- Rebinding one unprocessed child name to its cached replacement keeps the
invariant, marking the name processed. -/
theorem INVp_step (cs : List (String × ℕ)) (root : ℕ) (h0 h : Heap) (c : Cache)
    (names : List String) (n : String) (t v : ℕ)
    (hnd : (cs.map Prod.fst).Nodup) (hm : (n, t) ∈ cs) (hn : n ∉ names)
    (hv : c.lookup t = some v)
    (hinv : INVp cs root h0 h c names) :
    INVp cs root h0 (h.setattr root n v) c (n :: names) := by
  obtain ⟨hwf, hnext, hplin, hpnf4, hroot, hdom, hok⟩ := hinv
  refine ⟨WFHeapB_setattr h root n v hwf, ?_, ?_, ?_, ?_, ?_, ?_⟩
  · rw [next_setattr]
    exact hnext
  · intro i ddi hi
    have h1 := hplin i ddi hi
    have hir : i ≠ root := by
      intro he
      rw [he, hroot] at h1
      simp at h1
    rw [Heap.get_setattr_ne _ _ _ _ _ hir]
    exact h1
  · intro i ddi hi
    have h1 := hpnf4 i ddi hi
    have hir : i ≠ root := by
      intro he
      rw [he, hroot] at h1
      simp at h1
    rw [Heap.get_setattr_ne _ _ _ _ _ hir]
    exact h1
  · exact root_update cs root h c names n t v hnd hm hn hv hroot
  · intro p hp hpn
    rcases List.mem_cons.mp hpn with hp1 | hp2
    · have hpe : p = (n, t) := mem_unique_nodup cs hnd n t p hm hp hp1
      rw [hpe]
      show (c.lookup t).isSome = true
      rw [hv]
      rfl
    · exact hdom p hp hp2
  · exact CacheOK_setattr h c root n v _ hok hroot

/-- Caching a freshly packed copy of an uncached convertible linear keeps the
invariant. -/
theorem INVp_grow_lin (cs : List (String × ℕ)) (root : ℕ) (h0 h : Heap) (c : Cache)
    (names : List String) (t : ℕ) (dd0 : LinData)
    (hnone : c.lookup t = none) (ht : h.get t = some (Obj.linear dd0))
    (hinv : INVp cs root h0 h c names) :
    INVp cs root h0 (h.alloc (Obj.nf4 dd0)) ((t, h.next) :: c) names := by
  obtain ⟨hwf, hnext, hplin, hpnf4, hroot, hdom, hok⟩ := hinv
  have ht_lt : t < h.next := get_lt_next h hwf t _ ht
  have hroot_lt : root < h.next := get_lt_next h hwf root _ hroot
  refine ⟨WFHeapB_alloc h _ hwf, ?_, ?_, ?_, ?_, ?_, ?_⟩
  · rw [next_alloc]
    omega
  · intro i ddi hi
    have h1 := hplin i ddi hi
    have hlt : i ≠ h.next := Nat.ne_of_lt (get_lt_next h hwf i _ h1)
    rw [Heap.get_alloc, if_neg hlt]
    exact h1
  · intro i ddi hi
    have h1 := hpnf4 i ddi hi
    have hlt : i ≠ h.next := Nat.ne_of_lt (get_lt_next h hwf i _ h1)
    rw [Heap.get_alloc, if_neg hlt]
    exact h1
  · have hget : (h.alloc (Obj.nf4 dd0)).get root = h.get root := by
      rw [Heap.get_alloc, if_neg (Nat.ne_of_lt hroot_lt)]
    rw [hget]
    exact root_reindex cs root h c names t h.next hnone hdom hroot
  · intro p hp hpn
    have hs := hdom p hp hpn
    have hne : p.2 ≠ t := by
      intro he
      rw [he, hnone] at hs
      cases hs
    rw [lookup_cons_ne _ _ _ _ hne]
    exact hs
  · intro o w hw
    by_cases hot : o = t
    · subst hot
      rw [lookup_cons_self] at hw
      cases hw
      refine Or.inl ⟨dd0, ?_, ?_⟩
      · rw [Heap.get_alloc, if_neg (Nat.ne_of_lt ht_lt)]
        exact ht
      · rw [Heap.get_alloc, if_pos rfl]
    · rw [lookup_cons_ne _ _ _ _ hot] at hw
      exact CacheOK_alloc h c _ hwf hok o w hw

/-- Caching an already packed module as its own replacement keeps the invariant. -/
theorem INVp_grow_nf4 (cs : List (String × ℕ)) (root : ℕ) (h0 h : Heap) (c : Cache)
    (names : List String) (t : ℕ) (dd0 : LinData)
    (hnone : c.lookup t = none) (ht : h.get t = some (Obj.nf4 dd0))
    (hinv : INVp cs root h0 h c names) :
    INVp cs root h0 h ((t, t) :: c) names := by
  obtain ⟨hwf, hnext, hplin, hpnf4, hroot, hdom, hok⟩ := hinv
  refine ⟨hwf, hnext, hplin, hpnf4, ?_, ?_, ?_⟩
  · exact root_reindex cs root h c names t t hnone hdom hroot
  · intro p hp hpn
    have hs := hdom p hp hpn
    have hne : p.2 ≠ t := by
      intro he
      rw [he, hnone] at hs
      cases hs
    rw [lookup_cons_ne _ _ _ _ hne]
    exact hs
  · intro o w hw
    by_cases hot : o = t
    · subst hot
      rw [lookup_cons_self] at hw
      cases hw
      exact Or.inr ⟨rfl, dd0, ht⟩
    · rw [lookup_cons_ne _ _ _ _ hot] at hw
      exact hok o w hw

/-- The first for loop over any deduplicated slice of a flat container converts
and rebinds every listed child, preserving the invariant and extending the
cache. -/
theorem convertChildren_flat (cs : List (String × ℕ)) (root : ℕ) (h0 : Heap)
    (hnn : (cs.map Prod.fst).Nodup)
    (hflat : ∀ p ∈ cs, isLeafB h0 p.2 = true) (f : ℕ) :
    ∀ (dd : List (String × ℕ)), (∀ p ∈ dd, p ∈ cs) → (dd.map Prod.fst).Nodup →
    ∀ (h : Heap) (c : Cache) (names : List String),
      (∀ p ∈ dd, p.1 ∉ names) →
      INVp cs root h0 h c names →
      ∃ h2 c2 names2,
        convertChildren (f + 1) dd h c root names = some (h2, c2, names2) ∧
        INVp cs root h0 h2 c2 names2 ∧ CExt c c2 ∧
        (∀ n, n ∈ names → n ∈ names2) ∧ (∀ p ∈ dd, p.1 ∈ names2) := by
  intro dd
  induction dd with
  | nil =>
      intro _ _ h c names _ hinv
      exact ⟨h, c, names, by rw [convertChildren], hinv, CExt_refl c, fun n hn => hn,
        fun p hp => absurd hp (List.not_mem_nil p)⟩
  | cons q rest ih =>
      intro hsub hndd h c names hnot hinv
      obtain ⟨n, t⟩ := q
      have hmem : (n, t) ∈ cs := hsub (n, t) (List.mem_cons_self _ _)
      have hnotin : n ∉ names := hnot (n, t) (List.mem_cons_self _ _)
      have hrest_sub : ∀ p ∈ rest, p ∈ cs := fun p hp => hsub p (List.mem_cons_of_mem _ hp)
      rw [List.map_cons, List.nodup_cons] at hndd
      have hrest_not : ∀ p ∈ rest, p.1 ∉ (n :: names) := by
        intro p hp hcon
        rcases List.mem_cons.mp hcon with he | hin
        · exact hndd.1 (List.mem_map.mpr ⟨p, hp, he⟩)
        · exact hnot p (List.mem_cons_of_mem _ hp) hin
      rw [convertChildren, if_neg hnotin]
      cases hc : c.lookup t with
      | some v =>
          have hinv2 := INVp_step cs root h0 h c names n t v hnn hmem hnotin hc hinv
          obtain ⟨h2, c2, names2, heq, hinv3, hext, hmono, hproc⟩ :=
            ih hrest_sub hndd.2 (h.setattr root n v) c (n :: names) hrest_not hinv2
          refine ⟨h2, c2, names2, ?_, hinv3, hext, ?_, ?_⟩
          · exact heq
          · exact fun nm hnm => hmono nm (List.mem_cons_of_mem _ hnm)
          · intro p hp
            rcases List.mem_cons.mp hp with he | htl
            · rw [he]
              exact hmono n (List.mem_cons_self _ _)
            · exact hproc p htl
      | none =>
          dsimp only
          have hleaf := hflat (n, t) hmem
          cases hg0 : h0.get t with
          | none =>
              rw [isLeafB.eq_def, hg0] at hleaf
              simp at hleaf
          | some ob =>
              cases ob with
              | container ch =>
                  rw [isLeafB.eq_def, hg0] at hleaf
                  simp at hleaf
              | linear dd0 =>
                  have ht : h.get t = some (Obj.linear dd0) := hinv.2.2.1 t dd0 hg0
                  rw [convert_linear f h c t dd0 ht]
                  simp only [Option.bind_eq_bind, Option.some_bind]
                  have hinvA := INVp_grow_lin cs root h0 h c names t dd0 hc ht hinv
                  have hcache : ((t, h.next) :: c).lookup t = some h.next :=
                    lookup_cons_self t h.next c
                  have hinvB := INVp_step cs root h0 (h.alloc (Obj.nf4 dd0))
                    ((t, h.next) :: c) names n t h.next hnn hmem hnotin hcache hinvA
                  obtain ⟨h2, c2, names2, heq, hinv3, hext, hmono, hproc⟩ :=
                    ih hrest_sub hndd.2 _ _ (n :: names) hrest_not hinvB
                  refine ⟨h2, c2, names2, ?_, hinv3,
                    CExt_trans c _ c2 (CExt_cons c t h.next hc) hext, ?_, ?_⟩
                  · exact heq
                  · exact fun nm hnm => hmono nm (List.mem_cons_of_mem _ hnm)
                  · intro p hp
                    rcases List.mem_cons.mp hp with he | htl
                    · rw [he]
                      exact hmono n (List.mem_cons_self _ _)
                    · exact hproc p htl
              | nf4 dd0 =>
                  have ht : h.get t = some (Obj.nf4 dd0) := hinv.2.2.2.1 t dd0 hg0
                  rw [convert_nf4 f h c t dd0 ht]
                  simp only [Option.bind_eq_bind, Option.some_bind]
                  have hinvA := INVp_grow_nf4 cs root h0 h c names t dd0 hc ht hinv
                  have hcache : ((t, t) :: c).lookup t = some t :=
                    lookup_cons_self t t c
                  have hinvB := INVp_step cs root h0 h ((t, t) :: c) names n t t
                    hnn hmem hnotin hcache hinvA
                  obtain ⟨h2, c2, names2, heq, hinv3, hext, hmono, hproc⟩ :=
                    ih hrest_sub hndd.2 _ _ (n :: names) hrest_not hinvB
                  refine ⟨h2, c2, names2, ?_, hinv3,
                    CExt_trans c _ c2 (CExt_cons c t t hc) hext, ?_, ?_⟩
                  · exact heq
                  · exact fun nm hnm => hmono nm (List.mem_cons_of_mem _ hnm)
                  · intro p hp
                    rcases List.mem_cons.mp hp with he | htl
                    · rw [he]
                      exact hmono n (List.mem_cons_self _ _)
                    · exact hproc p htl

/-! Counting lemmas for the while loop termination measure. -/

theorem filter_le_of_imp {α : Type} (p q : α → Bool)
    (himp : ∀ a, p a = true → q a = true) :
    ∀ (l : List α), (l.filter p).length ≤ (l.filter q).length := by
  intro l
  induction l with
  | nil => simp
  | cons a rest ih =>
      cases hp : p a with
      | true =>
          rw [List.filter_cons_of_pos hp, List.filter_cons_of_pos (himp a hp)]
          exact Nat.succ_le_succ ih
      | false =>
          rw [List.filter_cons_of_neg (by rw [hp]; exact Bool.false_ne_true)]
          cases hq : q a with
          | true =>
              rw [List.filter_cons_of_pos hq]
              exact Nat.le_succ_of_le ih
          | false =>
              rw [List.filter_cons_of_neg (by rw [hq]; exact Bool.false_ne_true)]
              exact ih

theorem filter_lt_of_imp {α : Type} (p q : α → Bool) (a0 : α)
    (himp : ∀ a, p a = true → q a = true) (hq : q a0 = true) (hp : p a0 = false) :
    ∀ (l : List α), a0 ∈ l → (l.filter p).length < (l.filter q).length := by
  intro l
  induction l with
  | nil => intro hm; simp at hm
  | cons a rest ih =>
      intro hm
      rcases List.mem_cons.mp hm with he | htl
      · subst he
        rw [List.filter_cons_of_neg (by rw [hp]; exact Bool.false_ne_true),
          List.filter_cons_of_pos hq]
        exact Nat.lt_succ_of_le (filter_le_of_imp p q himp rest)
      · cases hpa : p a with
        | true =>
            rw [List.filter_cons_of_pos hpa, List.filter_cons_of_pos (himp a hpa)]
            exact Nat.succ_lt_succ (ih htl)
        | false =>
            rw [List.filter_cons_of_neg (by rw [hpa]; exact Bool.false_ne_true)]
            cases hqa : q a with
            | true =>
                rw [List.filter_cons_of_pos hqa]
                exact Nat.lt_succ_of_lt (ih htl)
            | false =>
                rw [List.filter_cons_of_neg (by rw [hqa]; exact Bool.false_ne_true)]
                exact ih htl

theorem remNames_le (cs : List (String × ℕ)) (names names2 : List String)
    (hsub : ∀ n, n ∈ names → n ∈ names2) :
    remNames cs names2 ≤ remNames cs names := by
  apply filter_le_of_imp
  intro a ha
  rcases of_decide_eq_true ha with hno
  apply decide_eq_true
  intro hin
  exact hno (hsub a hin)

theorem remNames_lt (cs : List (String × ℕ)) (names names2 : List String)
    (hsub : ∀ n, n ∈ names → n ∈ names2) (n0 : String)
    (hn0cs : n0 ∈ cs.map Prod.fst) (hn0old : n0 ∉ names) (hn0new : n0 ∈ names2) :
    remNames cs names2 < remNames cs names := by
  apply filter_lt_of_imp _ _ n0
  · intro a ha
    rcases of_decide_eq_true ha with hno
    apply decide_eq_true
    intro hin
    exact hno (hsub a hin)
  · exact decide_eq_true hn0old
  · exact decide_eq_false (by intro hcon; exact hcon hn0new)
  · exact hn0cs

/-- One scan of the while loop: every yielded entry it handles is rebound to its
cached replacement; the invariant is kept, the flag only rises, an unchanged
flag means an unchanged state with every yielded name already handled, and a
raised flag marks at least one newly handled original child name. -/
theorem scanPass_flat (cs : List (String × ℕ)) (root : ℕ) (h0 : Heap) (c : Cache)
    (hnn : (cs.map Prod.fst).Nodup)
    (hdomc : ∀ p ∈ cs, (c.lookup p.2).isSome = true) (names0 : List String) :
    ∀ (L : List (String × ℕ)) (h : Heap) (names : List String) (flag : Bool),
      (∀ q ∈ L, ∃ p, p ∈ cs ∧ q.1 = p.1 ∧ (q.1 ∉ names0 → q.2 = p.2)) →
      (∀ n, n ∈ names0 → n ∈ names) →
      INVp cs root h0 h c names →
      ∃ h2 names2 flag2,
        scanPass L h c root names flag = some (h2, names2, flag2) ∧
        INVp cs root h0 h2 c names2 ∧
        (∀ n, n ∈ names → n ∈ names2) ∧
        (flag = true → flag2 = true) ∧
        (flag2 = false → flag = false ∧ h2 = h ∧ names2 = names ∧
          ∀ q ∈ L, q.1 ∈ names) ∧
        (flag2 = true → flag = false →
          ∃ n, n ∈ cs.map Prod.fst ∧ n ∉ names ∧ n ∈ names2) := by
  intro L
  induction L with
  | nil =>
      intro h names flag _ _ hinv
      refine ⟨h, names, flag, by rw [scanPass], hinv, fun n hn => hn, fun hf => hf,
        ?_, ?_⟩
      · intro hf2
        refine ⟨?_, rfl, rfl, fun q hq => absurd hq (List.not_mem_nil q)⟩
        cases flag
        · rfl
        · exact hf2
      · intro hf2 hf
        rw [hf] at hf2
        cases hf2
  | cons q rest ih =>
      intro h names flag hL hsub0 hinv
      obtain ⟨qn, qt⟩ := q
      obtain ⟨p, hpcs, hq1, hq2⟩ := hL (qn, qt) (List.mem_cons_self _ _)
      have hLrest : ∀ q2 ∈ rest, ∃ p2, p2 ∈ cs ∧ q2.1 = p2.1 ∧
          (q2.1 ∉ names0 → q2.2 = p2.2) :=
        fun q2 hq2m => hL q2 (List.mem_cons_of_mem _ hq2m)
      rw [scanPass]
      by_cases hqn : qn ∈ names
      · rw [if_pos hqn]
        obtain ⟨h2, names2, flag2, heq, hinv2, hmono, hrise, hsame, hnew⟩ :=
          ih h names flag hLrest hsub0 hinv
        refine ⟨h2, names2, flag2, heq, hinv2, hmono, hrise, ?_, hnew⟩
        intro hf2
        obtain ⟨hfl, hh, hnm, hall⟩ := hsame hf2
        refine ⟨hfl, hh, hnm, ?_⟩
        intro q2 hq2m
        rcases List.mem_cons.mp hq2m with he | htl
        · rw [he]
          exact hqn
        · exact hall q2 htl
      · rw [if_neg hqn]
        have hqn0 : qn ∉ names0 := fun hin => hqn (hsub0 qn hin)
        have hqt : qt = p.2 := hq2 hqn0
        have hpe : (qn, qt) = p := by
          rw [← Prod.mk.eta (p := p), ← hq1, ← hqt]
        have hdom : (c.lookup qt).isSome = true := by
          rw [hqt]
          exact hdomc p hpcs
        cases hcl : c.lookup qt with
        | none => rw [hcl] at hdom; cases hdom
        | some nid =>
            have hmemcs : (qn, qt) ∈ cs := by rw [hpe]; exact hpcs
            have hinv2 := INVp_step cs root h0 h c names qn qt nid hnn hmemcs hqn
              hcl hinv
            obtain ⟨h2, names2, flag2, heq, hinv3, hmono, hrise, hsame, hnew⟩ :=
              ih (h.setattr root qn nid) (qn :: names) true hLrest
                (fun n hn => List.mem_cons_of_mem _ (hsub0 n hn)) hinv2
            refine ⟨h2, names2, flag2, heq, hinv3, ?_, ?_, ?_, ?_⟩
            · exact fun n hn => hmono n (List.mem_cons_of_mem _ hn)
            · intro _
              exact hrise rfl
            · intro hf2
              have := hrise rfl
              rw [hf2] at this
              cases this
            · intro _ _
              exact ⟨qn, List.mem_map.mpr ⟨p, hpcs, hq1.symm⟩, hqn,
                hmono qn (List.mem_cons_self _ _)⟩

/-- The trailing while loop on a flat container terminates within fuel exceeding
the number of unhandled names, keeps the invariant, and on exit has rebound
every child name whose original target was a convertible linear. -/
theorem whilePass_flat (cs : List (String × ℕ)) (root : ℕ) (h0 : Heap) (c : Cache)
    (hnn : (cs.map Prod.fst).Nodup)
    (hdomc : ∀ p ∈ cs, (c.lookup p.2).isSome = true) :
    ∀ (wf : ℕ) (h : Heap) (names : List String),
      INVp cs root h0 h c names → remNames cs names < wf →
      ∃ h2 names2,
        whilePass wf h c root names = some (h2, names2) ∧
        INVp cs root h0 h2 c names2 ∧ (∀ n, n ∈ names → n ∈ names2) ∧
        (∀ p ∈ cs, (∃ dd, h0.get p.2 = some (Obj.linear dd)) → p.1 ∈ names2) := by
  intro wf
  induction wf with
  | zero => intro h names _ hlt; exact absurd hlt (Nat.not_lt_zero _)
  | succ wf ih =>
      intro h names hinv hlt
      have hroot := hinv.2.2.2.2.1
      have hnc : namedChildren h root = dedupById (cs.map (fun p =>
          (p.1, if p.1 ∈ names then (c.lookup p.2).getD p.2 else p.2))) [] := by
        simp only [namedChildren, hroot]
      have hHL : ∀ q ∈ namedChildren h root, ∃ p, p ∈ cs ∧ q.1 = p.1 ∧
          (q.1 ∉ names → q.2 = p.2) := by
        intro q hq
        rw [hnc] at hq
        have hqcl := dedup_mem _ _ q hq
        obtain ⟨p, hp, hfe⟩ := List.mem_map.mp hqcl
        have hq1 : q.1 = p.1 := by rw [← hfe]
        refine ⟨p, hp, hq1, ?_⟩
        intro hqn
        rw [hq1] at hqn
        rw [← hfe]
        show (if p.1 ∈ names then _ else _) = p.2
        rw [if_neg hqn]
      obtain ⟨h2, names2, flag2, hseq, hinv2, hmono2, _, hsame, hnew⟩ :=
        scanPass_flat cs root h0 c hnn hdomc names (namedChildren h root) h names
          false hHL (fun n hn => hn) hinv
      rw [whilePass, hseq]
      simp only [Option.bind_eq_bind, Option.some_bind]
      cases flag2 with
      | false =>
          obtain ⟨_, hh, hnm, hall⟩ := hsame rfl
          subst hh
          subst hnm
          refine ⟨h2, names2, ?_, hinv, fun n hn => hn, ?_⟩
          · simp
          · intro p hp hlin
            obtain ⟨dd, hdd⟩ := hlin
            by_cases hpn : p.1 ∈ names2
            · exact hpn
            · exfalso
              have hget : h2.get p.2 = some (Obj.linear dd) := hinv.2.2.1 p.2 dd hdd
              have hentry : (p.1, p.2) ∈ cs.map (fun p2 =>
                  (p2.1, if p2.1 ∈ names2 then (c.lookup p2.2).getD p2.2 else p2.2)) := by
                refine List.mem_map.mpr ⟨p, hp, ?_⟩
                rw [if_neg hpn]
              rcases dedup_cover _ [] p.2 ⟨p.1, hentry⟩ with hfalse | ⟨nn, hnn2⟩
              · simp at hfalse
              · have hnnL : (nn, p.2) ∈ namedChildren h2 root := by
                  rw [hnc]
                  exact hnn2
                have hnns : nn ∈ names2 := hall (nn, p.2) hnnL
                have hnncl := dedup_mem _ _ (nn, p.2) hnn2
                obtain ⟨p2, hp2, hfe2⟩ := List.mem_map.mp hnncl
                have hp21 : p2.1 = nn := congrArg Prod.fst hfe2
                have hval : (if p2.1 ∈ names2 then (c.lookup p2.2).getD p2.2
                    else p2.2) = p.2 := congrArg Prod.snd hfe2
                rw [if_pos (by rw [hp21]; exact hnns)] at hval
                have hds := hdomc p2 hp2
                cases hcl : c.lookup p2.2 with
                | none => rw [hcl] at hds; cases hds
                | some w =>
                    rw [hcl] at hval
                    have hwp : w = p.2 := hval
                    rcases hinv.2.2.2.2.2.2 p2.2 w hcl with ⟨dd2, _, hv⟩ |
                      ⟨hvo, dd2, ho⟩
                    · rw [hwp, hget] at hv
                      simp at hv
                    · have h5 : h2.get p.2 = some (Obj.nf4 dd2) := by
                        rw [← hwp, hvo]
                        exact ho
                      rw [hget] at h5
                      simp at h5
      | true =>
          obtain ⟨n0, hn0cs, hn0old, hn0new⟩ := hnew rfl rfl
          have hlt2 : remNames cs names2 < wf := by
            have h1 := remNames_lt cs names names2 hmono2 n0 hn0cs hn0old hn0new
            omega
          obtain ⟨h3, names3, hweq, hinv3, hmono3, hdone⟩ := ih h2 names2 hinv2 hlt2
          refine ⟨h3, names3, ?_, hinv3, fun n hn => hmono3 n (hmono2 n hn), hdone⟩
          show (if true = true then _ else _) = _
          rw [if_pos rfl]
          exact hweq

/-- C6: replace_linear_with_nf4 on a flat module tree whose two distinct child
names reference the identical convertible linear object rebinds both names to
the identical single freshly packed replacement carrying that object's data. -/
theorem nf4_shared_single_replacement (h0 : Heap) (root : ℕ)
    (cs : List (String × ℕ)) (n1 n2 : String) (X : ℕ) (d : LinData) (f : ℕ)
    (hwf : WFHeapB h0 = true)
    (hroot : h0.get root = some (Obj.container cs))
    (hnn : (cs.map Prod.fst).Nodup)
    (hflat : cs.all (fun p => isLeafB h0 p.2) = true)
    (hm1 : (n1, X) ∈ cs) (hm2 : (n2, X) ∈ cs) (hne : n1 ≠ n2)
    (hX : h0.get X = some (Obj.linear d)) :
    ∃ h2 c2 nid, convert (f + 2) h0 [] root = some (h2, c2, root) ∧
      getBinding h2 root n1 = some nid ∧ getBinding h2 root n2 = some nid ∧
      h2.get nid = some (Obj.nf4 d) := by
  have hflatp : ∀ p ∈ cs, isLeafB h0 p.2 = true := by
    rw [List.all_eq_true] at hflat
    exact hflat
  have hmape : cs.map (fun p => (p.1, if p.1 ∈ ([] : List String)
      then (([] : Cache).lookup p.2).getD p.2 else p.2)) = cs := by
    have h1 : ∀ p ∈ cs, (p.1, if p.1 ∈ ([] : List String)
        then (([] : Cache).lookup p.2).getD p.2 else p.2) = id p := by
      intro p _
      rw [if_neg (List.not_mem_nil p.1)]
      exact Prod.mk.eta
    rw [List.map_congr_left h1, List.map_id]
  have hinv0 : INVp cs root h0 h0 ([] : Cache) [] := by
    refine ⟨hwf, Nat.le_refl _, fun i dd hi => hi, fun i dd hi => hi, ?_, ?_, ?_⟩
    · rw [hmape]
      exact hroot
    · intro p _ hpn
      exact absurd hpn (List.not_mem_nil _)
    · intro o v hv
      simp [List.lookup] at hv
  have hsub : ∀ p ∈ dedupById cs [], p ∈ cs := fun p hp => dedup_mem cs [] p hp
  have hnddd : ((dedupById cs []).map Prod.fst).Nodup :=
    hnn.sublist ((dedup_sublist cs []).map Prod.fst)
  have hnot0 : ∀ p ∈ dedupById cs [], p.1 ∉ ([] : List String) :=
    fun p _ => List.not_mem_nil _
  obtain ⟨h1h, c1, names1, heq1, hinv1, hext1, hmono1, hproc1⟩ :=
    convertChildren_flat cs root h0 hnn hflatp f (dedupById cs []) hsub hnddd
      h0 [] [] hnot0 hinv0
  have hdomc : ∀ p ∈ cs, (c1.lookup p.2).isSome = true := by
    intro p hp
    have hpself : (p.1, p.2) ∈ cs := by
      rw [Prod.mk.eta]
      exact hp
    rcases dedup_cover cs [] p.2 ⟨p.1, hpself⟩ with hfalse | ⟨nn, hnn3⟩
    · simp at hfalse
    · have hnm : nn ∈ names1 := hproc1 (nn, p.2) hnn3
      exact hinv1.2.2.2.2.2.1 (nn, p.2) (dedup_mem cs [] (nn, p.2) hnn3) hnm
  have hcc : childCount h1h root = cs.length := by
    simp only [childCount, hinv1.2.2.2.2.1, List.length_map]
  have hlt : remNames cs names1 < childCount h1h root + 1 := by
    have h1 : remNames cs names1 ≤ (cs.map Prod.fst).length :=
      List.length_filter_le _ _
    rw [List.length_map] at h1
    omega
  obtain ⟨h2h, names2, hweq, hinv2, hmono2, hdone⟩ :=
    whilePass_flat cs root h0 c1 hnn hdomc (childCount h1h root + 1) h1h names1
      hinv1 hlt
  have hnc0 : namedChildren h0 root = dedupById cs [] := by
    simp only [namedChildren, hroot]
  have hconv : convert (f + 2) h0 [] root = some (h2h, c1, root) := by
    show convert ((f + 1) + 1) h0 [] root = some (h2h, c1, root)
    rw [convert, hroot]
    rw [hnc0, heq1]
    simp only [Option.bind_eq_bind, Option.some_bind]
    rw [hweq]
    rfl
  have hroot2 := hinv2.2.2.2.2.1
  have hn1m : n1 ∈ names2 := hdone (n1, X) hm1 ⟨d, hX⟩
  have hn2m : n2 ∈ names2 := hdone (n2, X) hm2 ⟨d, hX⟩
  have hds := hdomc (n1, X) hm1
  cases hw : c1.lookup X with
  | none =>
      rw [hw] at hds
      cases hds
  | some w =>
      have hndmap : ((cs.map (fun p => (p.1, if p.1 ∈ names2
          then (c1.lookup p.2).getD p.2 else p.2))).map Prod.fst).Nodup := by
        rw [List.map_map]
        exact hnn
      have hb1 : (cs.map (fun p => (p.1, if p.1 ∈ names2
          then (c1.lookup p.2).getD p.2 else p.2))).lookup n1 = some w := by
        apply mem_lookup_nodup _ hndmap
        refine List.mem_map.mpr ⟨(n1, X), hm1, ?_⟩
        show (n1, if n1 ∈ names2 then (c1.lookup X).getD X else X) = (n1, w)
        rw [if_pos hn1m, hw]
        rfl
      have hb2 : (cs.map (fun p => (p.1, if p.1 ∈ names2
          then (c1.lookup p.2).getD p.2 else p.2))).lookup n2 = some w := by
        apply mem_lookup_nodup _ hndmap
        refine List.mem_map.mpr ⟨(n2, X), hm2, ?_⟩
        show (n2, if n2 ∈ names2 then (c1.lookup X).getD X else X) = (n2, w)
        rw [if_pos hn2m, hw]
        rfl
      have hpres : h2h.get X = some (Obj.linear d) := hinv2.2.2.1 X d hX
      have hnf : h2h.get w = some (Obj.nf4 d) := by
        rcases hinv2.2.2.2.2.2.2 X w hw with ⟨dd2, ho, hv⟩ | ⟨hvo, dd2, ho⟩
        · rw [hpres] at ho
          have hde : d = dd2 := by
            have := Option.some.inj ho
            exact Obj.linear.inj this
          rw [← hde] at hv
          exact hv
        · rw [hpres] at ho
          simp at ho
      refine ⟨h2h, c1, w, hconv, ?_, ?_, hnf⟩
      · rw [getBinding, hroot2]
        exact hb1
      · rw [getBinding, hroot2]
        exact hb2

/-- C6 witness: on the concrete two-alias tree the conversion rebinds both
names to one identical replacement. -/
theorem nf4_shared_single_replacement_witness :
    ∃ h2 c2 nid, convert 2 c6heap [] 0 = some (h2, c2, 0) ∧
      getBinding h2 0 "a" = some nid ∧ getBinding h2 0 "b" = some nid ∧
      h2.get nid = some (Obj.nf4 c6data) :=
  nf4_shared_single_replacement c6heap 0 [("a", 1), ("b", 1)] "a" "b" 1 c6data 0
    (by decide) (by decide) (by decide) (by decide) (by decide) (by decide)
    (by decide) (by decide)

end Lora2
